import Mathlib

/-!
# Verification of `georef-ar-address`

A shallow embedding of the core pipeline of the `georef-ar-address`
repository (`address_parser.py` and `address_data.py`), together with
theorems checking the natural-language specification against it.

Modelling conventions:
* Python strings are Lean `String`/`List Char`; the regular expressions of
  the source are compiled by hand into deterministic matchers over
  `List Char`, preserving the alternation order and the backtracking
  behaviour of the Python `re` engine on the pattern set actually used.
* Python `\d` and `\s` are modelled over the ASCII digits and the ASCII
  whitespace characters; `\w` is modelled as ASCII alphanumerics,
  underscore and the Spanish letters that occur in Argentine addresses.
* Machine-level details that the claims do not touch (Unicode categories
  beyond the characters above, IEEE floats — modelled as exact decimal
  rationals) are simplified as documented at each definition.
* `nltk.Tree` is the inductive type `PTree`; leaves carry token-kind
  strings as in the source pipeline.
-/

namespace Georef

/-! ## Character classes (models of Python's `\s`, `\d`, `\w`) -/

/-- Python `\s` restricted to the ASCII whitespace characters. -/
def isSpaceCh (c : Char) : Bool :=
  c = ' ' || c = '\t' || c = '\n' || c = '\r' || c.toNat = 11 || c.toNat = 12

/-- Python `\d` restricted to ASCII digits. -/
def isDigitCh (c : Char) : Bool := c.isDigit

/-- Spanish letters outside ASCII that occur in the data handled by the
parser (used to model Python's Unicode-aware `\w`). -/
def spanishLetters : List Char :=
  ['á', 'é', 'í', 'ó', 'ú', 'ñ', 'ü', 'Á', 'É', 'Í', 'Ó', 'Ú', 'Ñ', 'Ü', 'ª', 'º']

/-- Python `\w` modelled over ASCII alphanumerics, `_` and Spanish letters. -/
def isWordCh (c : Char) : Bool :=
  c.isAlphanum || c = '_' || spanishLetters.contains c

/-- Python character class `[^\W\d]`: a word character that is not a digit. -/
def isWordNonDigit (c : Char) : Bool := isWordCh c && !isDigitCh c

/-- Case folding for `re.IGNORECASE`: ASCII lower-casing extended with the
accented Spanish letters. -/
def lowerCh (c : Char) : Char :=
  if 'A' ≤ c ∧ c ≤ 'Z' then Char.ofNat (c.toNat + 32)
  else if c = 'Á' then 'á' else if c = 'É' then 'é' else if c = 'Í' then 'í'
  else if c = 'Ó' then 'ó' else if c = 'Ú' then 'ú' else if c = 'Ñ' then 'ñ'
  else if c = 'Ü' then 'ü' else c

/-- Case-insensitive literal match: if the lower-cased input starts with
`pat`, return the number of characters consumed. -/
def litAt (pat : List Char) (cs : List Char) : Option Nat :=
  match pat, cs with
  | [], _ => some 0
  | _ :: _, [] => none
  | p :: ps, c :: rest =>
    if lowerCh c = p then (litAt ps rest).map (· + 1) else none

/-- `str.strip()`: drop leading and trailing whitespace. -/
def stripChars (cs : List Char) : List Char :=
  ((cs.dropWhile isSpaceCh).reverse.dropWhile isSpaceCh).reverse

/-! ## Parse trees (model of `nltk.Tree`) -/

/-- A parse tree: interior nodes carry a production label, leaves carry the
token kind they cover (as in the token-type sequences fed to the parser). -/
inductive PTree where
  | leaf (tok : String)
  | node (label : String) (children : List PTree)

/-- `Tree.label()`; on a leaf we return its token string (the Python call
would fail there, and no code path in the source performs it). -/
def labelOf : PTree → String
  | .leaf t => t
  | .node l _ => l

mutual

/-- `Tree.subtrees()`: the tree itself followed by the subtrees of each
child that is itself a tree, in preorder. -/
def subtreesOf : PTree → List PTree
  | .leaf _ => []
  | .node l cs => .node l cs :: subtreesList cs

def subtreesList : List PTree → List PTree
  | [] => []
  | c :: cs => subtreesOf c ++ subtreesList cs

end

mutual

/-- Number of leaves of a tree. -/
def leafCount : PTree → Nat
  | .leaf _ => 1
  | .node _ cs => leafCountList cs

def leafCountList : List PTree → Nat
  | [] => 0
  | c :: cs => leafCount c + leafCountList cs

end

/-- `subtree[0][0].label()` as used by `TreeVisitor._get_rank`, made total:
the label of the first grandchild when it exists and is an interior node. -/
def firstGrandchildLabel : PTree → Option String
  | .node _ (.node _ (g :: _) :: _) =>
    match g with
    | .node l _ => some l
    | .leaf _ => none
  | _ => none

/-! ## `TreeVisitor._get_rank` -/

/-- The loop body of `_get_rank`: accumulate `has_door_number` and
`unnamed_streets` over the filtered subtrees, in traversal order. -/
def rankFold : List PTree → Bool × Nat → Bool × Nat
  | [], acc => acc
  | s :: ss, (hd, un) =>
    rankFold ss
      (hd || (labelOf s = "street_with_num" : Bool),
       if firstGrandchildLabel s = some "unnamed_street" then un + 1 else un)

/-- `TreeVisitor._get_rank`: the rank triple of a parse tree. -/
def get_rank (t : PTree) : Nat × Nat × Nat :=
  let subs := (subtreesOf t).filter
    (fun s => labelOf s = "street_no_num" || labelOf s = "street_with_num")
  let acc := rankFold subs (false, 0)
  let ranks : List String :=
    if acc.1 then ["intersection", "simple", "between"]
    else ["simple", "intersection", "between"]
  (acc.2, if acc.1 then 1 else 0, ranks.indexOf (labelOf t))

/-! ## `AddressParser._disambiguate_trees` -/

/-- Lexicographic order on rank triples (Python tuple comparison). -/
def rankLe (a b : Nat × Nat × Nat) : Prop :=
  a.1 < b.1 ∨ (a.1 = b.1 ∧ (a.2.1 < b.2.1 ∨ (a.2.1 = b.2.1 ∧ a.2.2 ≤ b.2.2)))

instance (a b : Nat × Nat × Nat) : Decidable (rankLe a b) :=
  inferInstanceAs (Decidable (_ ∨ _))

/-- `t` sorts before `u` in `visitors.sort(key=rank, reverse=True)`:
its rank is at least the rank of `u`. -/
def rankGE (t u : PTree) : Prop := rankLe (get_rank u) (get_rank t)

instance : DecidableRel rankGE := fun t u =>
  inferInstanceAs (Decidable (rankLe _ _))

instance : IsTotal PTree rankGE :=
  ⟨fun t u => by unfold rankGE rankLe; omega⟩

instance : IsTrans PTree rankGE :=
  ⟨fun t u v h1 h2 => by unfold rankGE rankLe at *; omega⟩

/-- `AddressParser._disambiguate_trees`: with a single tree return it;
otherwise sort by rank descending and return the top tree unless the two
highest ranks coincide (ambiguity, `None`).  The Python code is only ever
called on a non-empty list; on `[]` we return `none`. -/
def disambiguate_trees (l : List PTree) : Option PTree :=
  if l.length = 1 then l.head?
  else
    match l.insertionSort rankGE with
    | v0 :: v1 :: _ => if get_rank v0 = get_rank v1 then none else some v0
    | _ => none

/-- Fold computing a maximum of ranks over a list of trees. -/
def maxFold (ts : List PTree) (init : Nat × Nat × Nat) : Nat × Nat × Nat :=
  ts.foldl (fun acc u => if rankLe acc (get_rank u) then get_rank u else acc) init

/-- The maximal rank occurring in a list of trees (`(0,0,0)` on `[]`). -/
def maxRank (l : List PTree) : Nat × Nat × Nat :=
  match l with
  | [] => (0, 0, 0)
  | t :: ts => maxFold ts (get_rank t)

/-! ## Tokenizer (`_TOKEN_TYPES` and `AddressParser._tokenize_address`)

Each named alternative of the token regular expression is compiled into a
deterministic matcher `List Char → Option Nat` returning the number of
characters consumed by the leftmost-biased match at the given position.
Alternation order inside each pattern, greediness and the (finite)
backtracking of the Python `re` engine on these patterns are reproduced
by trying the possible shapes in the engine's order. -/

/-- Try a list of case-insensitive literal alternatives in order. -/
def firstLitOf (pats : List (List Char)) (cs : List Char) : Option Nat :=
  match pats with
  | [] => none
  | p :: ps =>
    match litAt p cs with
    | some n => some n
    | none => firstLitOf ps cs

/-- Head character of the remainder after `n` characters. -/
def chAt (cs : List Char) (n : Nat) : Option Char := (cs.drop n).head?

/-- After a literal core, require one whitespace character (`core\s`). -/
def coreThenSpace (pats : List (List Char)) (cs : List Char) : Option Nat :=
  match pats with
  | [] => none
  | p :: ps =>
    match litAt p cs with
    | some n =>
      match chAt cs n with
      | some c => if isSpaceCh c then some (n + 1) else coreThenSpace ps cs
      | none => coreThenSpace ps cs
    | none => coreThenSpace ps cs

/-- After a literal core, require whitespace or end of input (`core(\s|$)`). -/
def coreThenSpaceOrEnd (pats : List (List Char)) (cs : List Char) : Option Nat :=
  match pats with
  | [] => none
  | p :: ps =>
    match litAt p cs with
    | some n =>
      match chAt cs n with
      | some c => if isSpaceCh c then some (n + 1) else coreThenSpaceOrEnd ps cs
      | none => some n
    | none => coreThenSpaceOrEnd ps cs

/-- After a literal core, require whitespace or a dot (`core[\s.]`). -/
def coreThenSpaceOrDot (pats : List (List Char)) (cs : List Char) : Option Nat :=
  match pats with
  | [] => none
  | p :: ps =>
    match litAt p cs with
    | some n =>
      match chAt cs n with
      | some c => if isSpaceCh c || c = '.' then some (n + 1) else coreThenSpaceOrDot ps cs
      | none => coreThenSpaceOrDot ps cs
    | none => coreThenSpaceOrDot ps cs

/-- `y\s(?=\D)|e\s(?=h?[iy])` -/
def mAND_WORD (cs : List Char) : Option Nat :=
  let a1 := match cs with
    | c0 :: c1 :: c2 :: _ =>
      if lowerCh c0 = 'y' && isSpaceCh c1 && !isDigitCh c2 then some 2 else none
    | _ => none
  let a2 := match cs with
    | c0 :: c1 :: c2 :: rest2 =>
      if lowerCh c0 = 'e' && isSpaceCh c1 then
        if lowerCh c2 = 'i' || lowerCh c2 = 'y' then some 2
        else if lowerCh c2 = 'h' then
          match rest2 with
          | c3 :: _ => if lowerCh c3 = 'i' || lowerCh c3 = 'y' then some 2 else none
          | [] => none
        else none
      else none
    | _ => none
  a1 <|> a2

/-- `y\s(?=\d)` -/
def mAND_NUM (cs : List Char) : Option Nat :=
  match cs with
  | c0 :: c1 :: c2 :: _ =>
    if lowerCh c0 = 'y' && isSpaceCh c1 && isDigitCh c2 then some 2 else none
  | _ => none

/-- `de\s` -/
def mOF (cs : List Char) : Option Nat := coreThenSpace [['d', 'e']] cs

/-- `piso(\s|$)` -/
def mFLOOR (cs : List Char) : Option Nat :=
  coreThenSpaceOrEnd [['p', 'i', 's', 'o']] cs

/-- `(d(e?p)?to\.?|departamento|oficina|of\.)\s` (cores listed in the
engine's backtracking order). -/
def mDOOR_TYPE (cs : List Char) : Option Nat :=
  coreThenSpace
    ["depto.".toList, "depto".toList, "dpto.".toList, "dpto".toList,
     "dto.".toList, "dto".toList, "departamento".toList, "oficina".toList,
     "of.".toList] cs

/-- `(p\.?b\.?|planta\sbaja)(\s|$)` -/
def mGROUNDL (cs : List Char) : Option Nat :=
  match coreThenSpaceOrEnd ["p.b.".toList, "p.b".toList, "pb.".toList, "pb".toList] cs with
  | some n => some n
  | none =>
    match litAt "planta".toList cs with
    | some n =>
      match chAt cs n with
      | some c =>
        if isSpaceCh c then
          match litAt "baja".toList (cs.drop (n + 1)) with
          | some m =>
            let k := n + 1 + m
            match chAt cs k with
            | some c2 => if isSpaceCh c2 then some (k + 1) else none
            | none => some k
          | none => none
        else none
      | none => none
    | none => none

/-- `esquina|esq\.|esq\s|esq/` -/
def mISCT_SEP (cs : List Char) : Option Nat :=
  match litAt "esquina".toList cs with
  | some n => some n
  | none =>
    match litAt "esq.".toList cs with
    | some n => some n
    | none =>
      match coreThenSpace ["esq".toList] cs with
      | some n => some n
      | none => litAt "esq/".toList cs

/-- `e/(calles)?|entre\scalles` -/
def mBTWN_SEP (cs : List Char) : Option Nat :=
  match litAt "e/calles".toList cs with
  | some n => some n
  | none =>
    match litAt "e/".toList cs with
    | some n => some n
    | none =>
      match litAt "entre".toList cs with
      | some n =>
        match chAt cs n with
        | some c =>
          if isSpaceCh c then
            (litAt "calles".toList (cs.drop (n + 1))).map (fun m => n + 1 + m)
          else none
        | none => none
      | none => none

/-- `entre\s` -/
def mBETWEEN (cs : List Char) : Option Nat := coreThenSpace ["entre".toList] cs

/-- `kil[oó]metro|km\.?` -/
def mKM (cs : List Char) : Option Nat :=
  match firstLitOf ["kilometro".toList, "kilómetro".toList] cs with
  | some n => some n
  | none => firstLitOf ["km.".toList, "km".toList] cs

/-- `s/nombre` -/
def mMISSING_NAME (cs : List Char) : Option Nat := litAt "s/nombre".toList cs

/-- `(sin\s|s/)(n[uú]mero|n(ro\.?|[°º]))` -/
def mMISSING_NUM (cs : List Char) : Option Nat :=
  let part2 (k : Nat) : Option Nat :=
    (firstLitOf
      ["numero".toList, "número".toList, "nro.".toList, "nro".toList,
       "n°".toList, "nº".toList] (cs.drop k)).map (fun m => k + m)
  match coreThenSpace ["sin".toList] cs with
  | some n =>
    match part2 n with
    | some m => some m
    | none =>
      match litAt "s/".toList cs with
      | some n2 => part2 n2
      | none => none
  | none =>
    match litAt "s/".toList cs with
    | some n2 => part2 n2
    | none => none

/-- The `S_N` pattern: `s` + slash-or-dash + `n`, or `s\s?n(\s|$)`. -/
def mS_N (cs : List Char) : Option Nat :=
  let a1 := match cs with
    | c0 :: c1 :: c2 :: _ =>
      if lowerCh c0 = 's' && (c1 = '/' || c1 = '-') && lowerCh c2 = 'n' then some 3 else none
    | _ => none
  match a1 with
  | some n => some n
  | none =>
    let a2 := match cs with
      | c0 :: c1 :: c2 :: rest =>
        if lowerCh c0 = 's' && isSpaceCh c1 && lowerCh c2 = 'n' then
          match rest with
          | c3 :: _ => if isSpaceCh c3 then some 4 else none
          | [] => some 3
        else none
      | _ => none
    match a2 with
    | some n => some n
    | none =>
      match cs with
      | c0 :: c1 :: rest =>
        if lowerCh c0 = 's' && lowerCh c1 = 'n' then
          match rest with
          | c2 :: _ => if isSpaceCh c2 then some 3 else none
          | [] => some 2
        else none
      | _ => none

/-- `(avda|av|bv|diag|pje)[\s.]` -/
def mSTREET_TYPE_S (cs : List Char) : Option Nat :=
  coreThenSpaceOrDot
    ["avda".toList, "av".toList, "bv".toList, "diag".toList, "pje".toList] cs

/-- `calle\s|avenida|bo?ulevard?|diagonal|pasaje` -/
def mSTREET_TYPE_L (cs : List Char) : Option Nat :=
  match coreThenSpace ["calle".toList] cs with
  | some n => some n
  | none =>
    firstLitOf
      ["avenida".toList, "boulevard".toList, "boulevar".toList,
       "bulevard".toList, "bulevar".toList, "diagonal".toList,
       "pasaje".toList] cs

/-- `ruta|(rta|rn|rp)[\s.]` -/
def mROUTE (cs : List Char) : Option Nat :=
  match litAt "ruta".toList cs with
  | some n => some n
  | none => coreThenSpaceOrDot ["rta".toList, "rn".toList, "rp".toList] cs

/-- `n\s?[°ºª*]|#|n(?=\d)` -/
def mNUM_LABEL_S (cs : List Char) : Option Nat :=
  let sym (c : Char) : Bool := c = '°' || c = 'º' || c = 'ª' || c = '*'
  let a1 := match cs with
    | c0 :: c1 :: rest =>
      if lowerCh c0 = 'n' then
        if isSpaceCh c1 then
          match rest with
          | c2 :: _ => if sym c2 then some 3 else none
          | [] => none
        else if sym c1 then some 2 else none
      else none
    | _ => none
  match a1 with
  | some n => some n
  | none =>
    match cs with
    | c0 :: rest =>
      if c0 = '#' then some 1
      else if lowerCh c0 = 'n' then
        match rest with
        | c1 :: _ => if isDigitCh c1 then some 1 else none
        | [] => none
      else none
    | [] => none

/-- `nro[\s.]|n[uú]mero` -/
def mNUM_LABEL_L (cs : List Char) : Option Nat :=
  match coreThenSpaceOrDot ["nro".toList] cs with
  | some n => some n
  | none => firstLitOf ["numero".toList, "número".toList] cs

/-- `\d+[.,]\d+` -/
def mDECIMAL (cs : List Char) : Option Nat :=
  let d1 := cs.takeWhile isDigitCh
  if d1.isEmpty then none
  else
    match cs.drop d1.length with
    | sep :: rest =>
      if sep = '.' || sep = ',' then
        let d2 := rest.takeWhile isDigitCh
        if d2.isEmpty then none else some (d1.length + 1 + d2.length)
      else none
    | [] => none

/-- Greedy tail of the `NUM_RANGE` pattern: consume as many
slash-or-dash + digits groups as possible starting at offset `n`. -/
def numRangeTail (cs : List Char) (n : Nat) : Nat :=
  match hc : cs.drop n with
  | sep :: rest =>
    if sep = '/' || sep = '-' then
      let d := rest.takeWhile isDigitCh
      if d.isEmpty then n else numRangeTail cs (n + 1 + d.length)
    else n
  | [] => n
termination_by cs.length - n
decreasing_by
  have hlen : (cs.drop n).length = cs.length - n := List.length_drop n cs
  rw [hc] at hlen
  simp only [List.length_cons] at hlen
  have : ¬ d.isEmpty := by assumption
  have hd : d.length ≠ 0 := by
    intro h0
    exact this (List.isEmpty_iff_length_eq_zero.mpr h0)
  omega

/-- The `NUM_RANGE` pattern: digits + slash-or-dash + digits, then any
number of further slash-or-dash + digits groups. -/
def mNUM_RANGE (cs : List Char) : Option Nat :=
  let d1 := cs.takeWhile isDigitCh
  if d1.isEmpty then none
  else
    match cs.drop d1.length with
    | sep :: rest =>
      if sep = '/' || sep = '-' then
        let d2 := rest.takeWhile isDigitCh
        if d2.isEmpty then none
        else some (numRangeTail cs (d1.length + 1 + d2.length))
      else none
    | [] => none

/-- `\d+(era?|nd[oa]|[nmtvr][oa])(\s|$|\.)` -/
def mORDINAL (cs : List Char) : Option Nat :=
  let d := cs.takeWhile isDigitCh
  if d.isEmpty then none
  else
    let after := cs.drop d.length
    let trail (k : Nat) : Option Nat :=
      match chAt after k with
      | some c => if isSpaceCh c || c = '.' then some (d.length + k + 1) else none
      | none => some (d.length + k)
    let suff2 : Option Nat :=
      match after with
      | c0 :: c1 :: _ =>
        if (lowerCh c0 = 'n' || lowerCh c0 = 'm' || lowerCh c0 = 't' ||
            lowerCh c0 = 'v' || lowerCh c0 = 'r') &&
           (lowerCh c1 = 'o' || lowerCh c1 = 'a') then trail 2 else none
      | _ => none
    match litAt "era".toList after with
    | some _ =>
      match trail 3 with
      | some n => some n
      | none =>
        match litAt "er".toList after with
        | some _ =>
          match trail 2 with
          | some n => some n
          | none =>
            match firstLitOf ["ndo".toList, "nda".toList] after with
            | some k =>
              match trail k with
              | some n => some n
              | none => suff2
            | none => suff2
        | none => none
    | none =>
      match litAt "er".toList after with
      | some _ =>
        match trail 2 with
        | some n => some n
        | none =>
          match firstLitOf ["ndo".toList, "nda".toList] after with
          | some k =>
            match trail k with
            | some n => some n
            | none => suff2
          | none => suff2
      | none =>
        match firstLitOf ["ndo".toList, "nda".toList] after with
        | some k =>
          match trail k with
          | some n => some n
          | none => suff2
        | none => suff2

/-- `\d+((\s|$)|[°º])` -/
def mNUM (cs : List Char) : Option Nat :=
  let d := cs.takeWhile isDigitCh
  if d.isEmpty then none
  else
    match cs.drop d.length with
    | c :: _ =>
      if isSpaceCh c then some (d.length + 1)
      else if c = '°' || c = 'º' then some (d.length + 1)
      else none
    | [] => some d.length

/-- `n\s` -/
def mN (cs : List Char) : Option Nat := coreThenSpace [['n']] cs

/-- `[^\d\W](\s|$|\.)` -/
def mLETTER (cs : List Char) : Option Nat :=
  match cs with
  | c0 :: rest =>
    if isWordNonDigit c0 then
      match rest with
      | c1 :: _ => if isSpaceCh c1 || c1 = '.' then some 2 else none
      | [] => some 1
    else none
  | [] => none

/-- `[\d]+[^\d\W](\s|$)` -/
def mNUMS_LETTER (cs : List Char) : Option Nat :=
  let d := cs.takeWhile isDigitCh
  if d.isEmpty then none
  else
    match cs.drop d.length with
    | c :: rest =>
      if isWordNonDigit c then
        match rest with
        | c2 :: _ => if isSpaceCh c2 then some (d.length + 2) else none
        | [] => some (d.length + 1)
      else none
    | [] => none

/-- `[^\s]+` -/
def mWORD (cs : List Char) : Option Nat :=
  let w := cs.takeWhile (fun c => !isSpaceCh c)
  if w.isEmpty then none else some w.length

/-- `\s` -/
def mWS (cs : List Char) : Option Nat :=
  match cs with
  | c :: _ => if isSpaceCh c then some 1 else none
  | [] => none

/-- The named alternatives of `_TOKEN_TYPES` before the two catch-alls
`WORD` and `WS`, in declaration order. -/
def preTokenTypes : List (String × (List Char → Option Nat)) :=
  [("AND_WORD", mAND_WORD), ("AND_NUM", mAND_NUM), ("OF", mOF),
   ("FLOOR", mFLOOR), ("DOOR_TYPE", mDOOR_TYPE), ("GROUNDL", mGROUNDL),
   ("ISCT_SEP", mISCT_SEP), ("BTWN_SEP", mBTWN_SEP), ("BETWEEN", mBETWEEN),
   ("KM", mKM), ("MISSING_NAME", mMISSING_NAME), ("MISSING_NUM", mMISSING_NUM),
   ("S_N", mS_N), ("STREET_TYPE_S", mSTREET_TYPE_S),
   ("STREET_TYPE_L", mSTREET_TYPE_L), ("ROUTE", mROUTE),
   ("NUM_LABEL_S", mNUM_LABEL_S), ("NUM_LABEL_L", mNUM_LABEL_L),
   ("DECIMAL", mDECIMAL), ("NUM_RANGE", mNUM_RANGE), ("ORDINAL", mORDINAL),
   ("NUM", mNUM), ("N", mN), ("LETTER", mLETTER),
   ("NUMS_LETTER", mNUMS_LETTER)]

/-- `_TOKEN_TYPES`: the named alternatives, in declaration order. -/
def tokenTypes : List (String × (List Char → Option Nat)) :=
  preTokenTypes ++ [("WORD", mWORD), ("WS", mWS)]

/-- First alternative (in declaration order) matching at the position. -/
def matchGo (alts : List (String × (List Char → Option Nat))) (cs : List Char) :
    Option (String × Nat) :=
  match alts with
  | [] => none
  | (name, m) :: rest =>
    match m cs with
    | some n => some (name, n)
    | none => matchGo rest cs

/-- The combined token regular expression applied at one position. -/
def matchFirst (cs : List Char) : Option (String × Nat) := matchGo tokenTypes cs

/-- `AddressParser._tokenize_address` on `List Char`: scan left to right;
at each position take the first matching alternative, strip the matched
text, and keep the token unless its kind is `WS`.  (All matchers consume
at least one character; `max n 1` makes that evident to the termination
checker without changing the function.) -/
def tokenizeFuel : Nat → List Char → List (String × String)
  | 0, _ => []
  | _ + 1, [] => []
  | fuel + 1, c :: rest =>
    match matchFirst (c :: rest) with
    | none => tokenizeFuel fuel rest
    | some (kind, n) =>
      if kind = "WS" then tokenizeFuel fuel ((c :: rest).drop (max n 1))
      else (⟨stripChars ((c :: rest).take (max n 1))⟩, kind) ::
        tokenizeFuel fuel ((c :: rest).drop (max n 1))

def tokenizeList (cs : List Char) : List (String × String) :=
  tokenizeFuel cs.length cs

/-- `AddressParser._tokenize_address`. -/
def tokenize_address (s : String) : List (String × String) := tokenizeList s.toList

/-! ## Normalizer (`_NORMALIZATION_REGEXPS`, `_SEPARATION_REGEXP`,
`AddressParser._normalize_address`) -/

/-- The `.+?\)` part of normalization pattern 1, applied after a keyword of
length `k` inside `rest` (the characters after the opening parenthesis):
non-greedily at least one non-`)` character, then the closing `)`.
`.` does not match a newline. -/
def nParenBody (rest : List Char) (k : Nat) : Option Nat :=
  let body := (rest.drop k).takeWhile (fun c => c ≠ ')')
  if body.length ≥ 1 && body.all (fun c => c ≠ '\n') &&
     !(rest.drop (k + body.length)).isEmpty then
    some (1 + k + body.length + 1)
  else none

/-- Pattern 1: `\((ex|antes|frente|mano|(al\s)?lado).+?\)` — a parenthesis,
one of the filler keywords, then (non-greedily) at least one character up
to the next `)`. -/
def nParen (cs : List Char) : Option Nat :=
  match cs with
  | '(' :: rest =>
    let tryKw (p : List Char) : Option Nat :=
      (litAt p rest).bind (fun k => nParenBody rest k)
    match tryKw "ex".toList with
    | some n => some n
    | none =>
      match tryKw "antes".toList with
      | some n => some n
      | none =>
        match tryKw "frente".toList with
        | some n => some n
        | none =>
          match tryKw "mano".toList with
          | some n => some n
          | none =>
            -- `(al\s)?lado`: optional `al` + whitespace, then `lado`
            let alOpt : Option Nat :=
              match litAt "al".toList rest with
              | some _ =>
                match chAt rest 2 with
                | some c =>
                  if isSpaceCh c then
                    (litAt "lado".toList (rest.drop 3)).bind
                      (fun _ => nParenBody rest 7)
                  else none
                | none => none
              | none => none
            match alOpt with
            | some n => some n
            | none => (litAt "lado".toList rest).bind (fun _ => nParenBody rest 4)
  | _ => none

/-- Pattern 2: `([vb][°ºª]|barrio\s|bo\.\s).*` — locality indicator and the
rest of the line. -/
def nLocality (cs : List Char) : Option Nat :=
  let core : Option Nat :=
    match cs with
    | c0 :: c1 :: _ =>
      if (lowerCh c0 = 'v' || lowerCh c0 = 'b') && (c1 = '°' || c1 = 'º' || c1 = 'ª') then
        some 2
      else
        match coreThenSpace ["barrio".toList] cs with
        | some n => some n
        | none => coreThenSpace ["bo.".toList] cs
    | _ => none
  core.map (fun n => n + ((cs.drop n).takeWhile (fun c => c ≠ '\n')).length)

/-- Pattern 3: `\([sneo]\)` -/
def nOrientation (cs : List Char) : Option Nat :=
  match cs with
  | '(' :: c :: ')' :: _ =>
    if lowerCh c = 's' || lowerCh c = 'n' || lowerCh c = 'e' || lowerCh c = 'o' then
      some 3
    else none
  | _ => none

/-- Pattern 4: `,(\s|$)|\s,` -/
def nComma (cs : List Char) : Option Nat :=
  match cs with
  | ',' :: rest =>
    match rest with
    | c :: _ => if isSpaceCh c then some 2 else none
    | [] => some 1
  | c :: ',' :: _ => if isSpaceCh c then some 2 else none
  | _ => none

/-- Pattern 5: stray `( ) " |` characters. -/
def nStray (cs : List Char) : Option Nat :=
  match cs with
  | c :: _ =>
    if c = '(' || c = ')' || c = '"' || c = '|' then some 1 else none
  | [] => none

/-- Pattern 6: `-+$` — trailing dashes (end of string only). -/
def nTrailingDash (cs : List Char) : Option Nat :=
  let run := cs.takeWhile (fun c => c = '-')
  if run.length ≥ 1 && (cs.drop run.length).isEmpty then some run.length else none

/-- Pattern 7: `\s-+|-+\s` — dashes next to whitespace. -/
def nSpacedDash (cs : List Char) : Option Nat :=
  match cs with
  | c :: rest =>
    if isSpaceCh c then
      let run := rest.takeWhile (fun x => x = '-')
      if run.length ≥ 1 then some (1 + run.length) else none
    else
      let run := cs.takeWhile (fun x => x = '-')
      if run.length ≥ 1 then
        match cs.drop run.length with
        | c2 :: _ => if isSpaceCh c2 then some (run.length + 1) else none
        | [] => none
      else none
  | [] => none

/-- Pattern 8: `\sal\s+(?=\d)` — the filler word `al` before a number. -/
def nAl (cs : List Char) : Option Nat :=
  match cs with
  | c0 :: rest =>
    if isSpaceCh c0 then
      match litAt "al".toList rest with
      | some _ =>
        let sps := (rest.drop 2).takeWhile isSpaceCh
        if sps.length ≥ 1 then
          match chAt rest (2 + sps.length) with
          | some d => if isDigitCh d then some (1 + 2 + sps.length) else none
          | none => none
        else none
      | none => none
    else none
  | [] => none

/-- The union of `_NORMALIZATION_REGEXPS` applied at one position
(alternatives in declaration order). -/
def noiseMatchAt (cs : List Char) : Option Nat :=
  match nParen cs with
  | some n => some n
  | none =>
    match nLocality cs with
    | some n => some n
    | none =>
      match nOrientation cs with
      | some n => some n
      | none =>
        match nComma cs with
        | some n => some n
        | none =>
          match nStray cs with
          | some n => some n
          | none =>
            match nTrailingDash cs with
            | some n => some n
            | none =>
              match nSpacedDash cs with
              | some n => some n
              | none => nAl cs

/-- `re.sub(' ', …)` over the noise union: each match is replaced by one
space, scanning resumes after the match. -/
def noiseFuel : Nat → List Char → List Char
  | 0, cs => cs
  | _ + 1, [] => []
  | fuel + 1, c :: rest =>
    match noiseMatchAt (c :: rest) with
    | some n => ' ' :: noiseFuel fuel ((c :: rest).drop (max n 1))
    | none => c :: noiseFuel fuel rest

def noiseScan (cs : List Char) : List Char := noiseFuel cs.length cs

/-- `_SEPARATION_REGEXP` at one position: a run of at least two non-digit
word characters, an optional dot, then a digit.  On success, returns the
first capture group (run and optional dot) and the matched digit; the
whole match consumes one character more than the group. -/
def sepMatchAt (cs : List Char) : Option (List Char × Char) :=
  let run := cs.takeWhile isWordNonDigit
  if run.length ≥ 2 then
    match cs.drop run.length with
    | '.' :: d :: _ => if isDigitCh d then some (run ++ ['.'], d) else none
    | d :: _ => if isDigitCh d then some (run, d) else none
    | [] => none
  else none

/-- `re.sub` of `_SEPARATION_REGEXP` with replacement `\1 \2`: scanning
resumes after the matched digit, i.e. after `g.length + 1` characters. -/
def sepFuel : Nat → List Char → List Char
  | 0, cs => cs
  | _ + 1, [] => []
  | fuel + 1, c :: rest =>
    match sepMatchAt (c :: rest) with
    | some (g, d) => g ++ ' ' :: d :: sepFuel fuel ((c :: rest).drop (g.length + 1))
    | none => c :: sepFuel fuel rest

def sepScan (cs : List Char) : List Char := sepFuel cs.length cs

/-- Python `str.split()`: split on whitespace runs, dropping empty parts. -/
def splitFuel : Nat → List Char → List (List Char)
  | 0, _ => []
  | _ + 1, [] => []
  | fuel + 1, c :: rest =>
    if isSpaceCh c then splitFuel fuel rest
    else
      (c :: rest.takeWhile (fun x => !isSpaceCh x)) ::
        splitFuel fuel (rest.drop (rest.takeWhile (fun x => !isSpaceCh x)).length)

def splitWs (cs : List Char) : List (List Char) := splitFuel cs.length cs

/-- `' '.join(…)`. -/
def joinSp : List (List Char) → List Char
  | [] => []
  | [w] => w
  | w :: ws => w ++ ' ' :: joinSp ws

/-- `AddressParser._normalize_address`: strip, replace noise by spaces,
separate glued letter-number runs, collapse whitespace. -/
def normalize_address (s : String) : String :=
  ⟨joinSp (splitWs (sepScan (noiseScan (stripChars s.toList))))⟩

/-! ## `TreeVisitor` component extraction -/

/-- A parse tree whose leaves have been replaced by their left-to-right
index in the whole tree (the mutated copy built by
`_get_components_leaves_indices`). -/
inductive ITree where
  | leaf (idx : Nat)
  | node (label : String) (children : List ITree)

mutual

/-- Replace each leaf by its index, threading a counter. -/
def indexT : PTree → Nat → ITree × Nat
  | .leaf _, n => (.leaf n, n + 1)
  | .node l cs, n =>
    let r := indexTList cs n
    (.node l r.1, r.2)

def indexTList : List PTree → Nat → List ITree × Nat
  | [], n => ([], n)
  | c :: cs, n =>
    let r := indexT c n
    let r' := indexTList cs r.2
    (r.1 :: r'.1, r'.2)

end

mutual

/-- `Tree.subtrees()` on indexed trees (preorder, interior nodes only). -/
def subtreesI : ITree → List ITree
  | .leaf _ => []
  | .node l cs => .node l cs :: subtreesIList cs

def subtreesIList : List ITree → List ITree
  | [] => []
  | c :: cs => subtreesI c ++ subtreesIList cs

end

mutual

/-- `Tree.leaves()` on indexed trees: leaf indices left to right. -/
def leavesI : ITree → List Nat
  | .leaf i => [i]
  | .node _ cs => leavesIList cs

def leavesIList : List ITree → List Nat
  | [] => []
  | c :: cs => leavesI c ++ leavesIList cs

end

def labelI : ITree → String
  | .leaf _ => ""
  | .node l _ => l

/-- The per-component leaf-index table built by
`_get_components_leaves_indices`: street index lists (accumulated in
traversal order) and the index lists of the last `door_number_value`,
`door_number_unit` and `floor` subtrees encountered (assignment
overwrites, as in the Python dict). -/
structure Components where
  street : List (List Nat)
  door_number_value : Option (List Nat)
  door_number_unit : Option (List Nat)
  floor : Option (List Nat)

def cliFold : List ITree → Components → Components
  | [], acc => acc
  | s :: ss, acc =>
    let li := leavesI s
    let acc' :=
      if labelI s = "street" then { acc with street := acc.street ++ [li] }
      else if labelI s = "door_number_value" then { acc with door_number_value := some li }
      else if labelI s = "door_number_unit" then { acc with door_number_unit := some li }
      else if labelI s = "floor" then { acc with floor := some li }
      else acc
    cliFold ss acc'

/-- `TreeVisitor._get_components_leaves_indices`. -/
def components_leaves_indices (t : PTree) : Components :=
  let it := (indexT t 0).1
  let interesting := (subtreesI it).filter
    (fun s => labelI s = "street" || labelI s = "door_number_value" ||
              labelI s = "door_number_unit" || labelI s = "floor")
  cliFold interesting ⟨[], none, none, none⟩

/-- `' '.join` on strings. -/
def joinStrSp : List String → String
  | [] => ""
  | [w] => w
  | w :: ws => w ++ " " ++ joinStrSp ws

/-- `TreeVisitor._select_token_values`, with the `IndexError` that Python
would raise on an out-of-range index made explicit. -/
def select_token_values (tokens : List (String × String)) (indices : List Nat) :
    Except String String :=
  if indices.all (fun i => i < tokens.length) then
    .ok (joinStrSp (indices.map (fun i => (tokens.getD i ("", "")).1)))
  else .error "IndexError"

/-- Traverse a list of index lists with `select_token_values`. -/
def selectAll (tokens : List (String × String)) : List (List Nat) →
    Except String (List String)
  | [] => .ok []
  | is :: iss =>
    match select_token_values tokens is with
    | .error e => .error e
    | .ok v =>
      match selectAll tokens iss with
      | .error e => .error e
      | .ok vs => .ok (v :: vs)

/-- An optional component: a `None` or empty index list is absent (Python
truthiness), otherwise its tokens are selected. -/
def selectOpt (tokens : List (String × String)) :
    Option (List Nat) → Except String (Option String)
  | some (i :: is) => (select_token_values tokens (i :: is)).map some
  | _ => .ok none

/-- `TreeVisitor.extract_data`: street names, door number value, door
number unit and floor recovered from the token lexemes. -/
def extract_data (t : PTree) (tokens : List (String × String)) :
    Except String (List String × Option String × Option String × Option String) :=
  match selectAll tokens (components_leaves_indices t).street with
  | .error e => .error e
  | .ok streets =>
    match selectOpt tokens (components_leaves_indices t).door_number_value with
    | .error e => .error e
    | .ok dnv =>
      match selectOpt tokens (components_leaves_indices t).door_number_unit with
      | .error e => .error e
      | .ok dnu =>
        match selectOpt tokens (components_leaves_indices t).floor with
        | .error e => .error e
        | .ok fl => .ok (streets, dnv, dnu, fl)

/-! ## `AddressData` (`address_data.py`) -/

def ADDRESS_TYPES : List String := ["simple", "intersection", "between"]

/-- The output record of the parser. -/
structure AddressData where
  type : String
  street_names : List String
  door_number_value : Option String
  door_number_unit : Option String
  floor : Option String
deriving DecidableEq

/-- `AddressData.__init__`: construction fails (Python raises
`ValueError`) on an unknown address type. -/
def mkAddressData (address_type : String) (street_names : List String)
    (door_number : Option String × Option String) (floor : Option String) :
    Option AddressData :=
  if address_type ∈ ADDRESS_TYPES then
    some ⟨address_type, street_names, door_number.1, door_number.2, floor⟩
  else none

/-- `AddressData.normalized_door_number_value` helper: leftmost match of
`\d+[,.]\d+` — integer digits and fraction digits. -/
def searchFloat : List Char → Option (List Char × List Char)
  | [] => none
  | c :: cs =>
    let here : Option (List Char × List Char) :=
      let d1 := (c :: cs).takeWhile isDigitCh
      if d1.isEmpty then none
      else
        match (c :: cs).drop d1.length with
        | sep :: rest =>
          if sep = '.' || sep = ',' then
            let d2 := rest.takeWhile isDigitCh
            if d2.isEmpty then none else some (d1, d2)
          else none
        | [] => none
    match here with
    | some r => some r
    | none => searchFloat cs

/-- Leftmost match of `\d+`: the maximal digit run at the first digit. -/
def searchInt : List Char → Option (List Char)
  | [] => none
  | c :: cs =>
    if isDigitCh c then some ((c :: cs).takeWhile isDigitCh) else searchInt cs

/-- Numeric value of a digit string. -/
def digitsVal (ds : List Char) : Nat :=
  ds.foldl (fun a c => 10 * a + (c.toNat - '0'.toNat)) 0

/-- The numeric result of `normalized_door_number_value`: a Python `int`
or a Python `float`.  The float is modelled as the exact decimal rational
described by the matched text. -/
inductive PyNum where
  | pint (n : Nat)
  | pfloat (q : ℚ)
deriving DecidableEq

/-- Exact value of `float("<d1>.<d2>")`. -/
def floatVal (d1 d2 : List Char) : ℚ :=
  (digitsVal d1 : ℚ) + (digitsVal d2 : ℚ) / (10 : ℚ) ^ d2.length

/-- `AddressData.normalized_door_number_value` as a function of the stored
door-number value. -/
def normalized_door_number_value (v : Option String) : Option PyNum :=
  match v with
  | none => none
  | some s =>
    if s = "" then none
    else
      match searchFloat s.toList with
      | some (d1, d2) => some (.pfloat (floatVal d1 d2))
      | none =>
        match searchInt s.toList with
        | some d => some (.pint (digitsVal d))
        | none => none

/-- Does `km|kil[oó]metro` match at this position (case-insensitively)? -/
def kmAt (cs : List Char) : Bool :=
  (litAt "km".toList cs).isSome || (litAt "kilometro".toList cs).isSome ||
  (litAt "kilómetro".toList cs).isSome

/-- `re.search` of `km|kil[oó]metro`. -/
def containsKm : List Char → Bool
  | [] => false
  | c :: cs => kmAt (c :: cs) || containsKm cs

/-- `AddressData.normalized_door_number_unit` as a function of the stored
door-number unit. -/
def normalized_door_number_unit (u : Option String) : Option String :=
  match u with
  | none => none
  | some s =>
    if s = "" then none
    else if containsKm s.toList then some "km" else none

/-- A string containing a fragment `digits[,.]digits` (the shape on which
`normalized_door_number_value` produces a float). -/
def FloatShape (cs : List Char) : Prop :=
  ∃ pre d1 sep d2 post, cs = pre ++ (d1 ++ (sep :: (d2 ++ post))) ∧
    d1 ≠ [] ∧ d2 ≠ [] ∧ (∀ c ∈ d1, isDigitCh c) ∧ (∀ c ∈ d2, isDigitCh c) ∧
    (sep = '.' ∨ sep = ',')

/-- The three ways the unit pattern can match a (lower-cased) fragment. -/
def KmFragment (mid : List Char) : Prop :=
  mid.map lowerCh = "km".toList ∨ mid.map lowerCh = "kilometro".toList ∨
  mid.map lowerCh = "kilómetro".toList

/-! ## Facade and cache (`AddressParser.parse`,
`AddressParser._parse_token_types`)

The chart-parsing/disambiguation stage `_tokens_parse_tree` invokes the
NLTK Earley parser on the grammar file `address-ar.cfg`; neither is part
of the sources under verification, so that stage is a parameter
`parseTT : List String → Option PTree` of the definitions below. -/

/-- The token-kind sequence a string is parsed as. -/
def typesOf (s : String) : List String :=
  (tokenize_address (normalize_address s)).map Prod.snd

/-- Assembly stage of `parse`: extract the components and build the
`AddressData` (stages 5).  Errors are the exceptions Python would raise. -/
def assemble (t : PTree) (tokens : List (String × String)) :
    Except String (Option AddressData) :=
  match extract_data t tokens with
  | .error e => .error e
  | .ok r =>
    match mkAddressData (labelOf t) r.1 (r.2.1, r.2.2.1) r.2.2.2 with
    | some ad => .ok (some ad)
    | none => .error "ValueError"

/-- `AddressParser.parse` without a cache: normalize, tokenize,
parse/disambiguate (`parseTT`), extract, assemble.  `.ok none` is the
parse-failure result; `.error` marks a raised exception. -/
def parsePy (parseTT : List String → Option PTree) (s : String) :
    Except String (Option AddressData) :=
  let processed := normalize_address s
  if processed = "" then .ok none
  else
    let tokens := tokenize_address processed
    match parseTT (tokens.map Prod.snd) with
    | none => .ok none
    | some t => assemble t tokens

/-- Contract of the missing chart-parsing stage.  Modelled from the spec:
the grammar's start alternatives are `simple | intersection | between`
(§3), and the chart parser only returns trees whose leaves exactly match
the token-kind sequence (§4.4); the grammar file `address-ar.cfg` and the
NLTK Earley parser are not among the sources. -/
def ChartContract (parseTT : List String → Option PTree) : Prop :=
  ∀ tts t, parseTT tts = some t →
    labelOf t ∈ ADDRESS_TYPES ∧ leafCount t = tts.length

/-- Association-list model of the Python cache dict. -/
def lookupA {K : Type} [DecidableEq K] : List (K × Option PTree) → K → Option (Option PTree)
  | [], _ => none
  | (k, v) :: rest, h => if k = h then some v else lookupA rest h

/-- `AddressParser._parse_token_types` with a cache: key the store by
`hashF` of the token-kind sequence (Python `hash(tuple(token_types))`),
return the cached outcome on a hit, otherwise compute and insert. -/
def parse_token_types_c {K : Type} [DecidableEq K] (hashF : List String → K)
    (parseTT : List String → Option PTree) (cache : List (K × Option PTree))
    (tts : List String) : Option PTree × List (K × Option PTree) :=
  let h := hashF tts
  match lookupA cache h with
  | some v => (v, cache)
  | none => (parseTT tts, (h, parseTT tts) :: cache)

/-- `AddressParser.parse` with a cache, threading the cache state. -/
def parsePyC {K : Type} [DecidableEq K] (hashF : List String → K)
    (parseTT : List String → Option PTree) (s : String)
    (cache : List (K × Option PTree)) :
    Except String (Option AddressData) × List (K × Option PTree) :=
  let processed := normalize_address s
  if processed = "" then (.ok none, cache)
  else
    let tokens := tokenize_address processed
    let r := parse_token_types_c hashF parseTT cache (tokens.map Prod.snd)
    match r.1 with
    | none => (.ok none, r.2)
    | some t => (assemble t tokens, r.2)

/-- Parse a batch of inputs sequentially with a shared cache. -/
def runBatch {K : Type} [DecidableEq K] (hashF : List String → K)
    (parseTT : List String → Option PTree) :
    List String → List (K × Option PTree) → List (K × Option PTree)
  | [], cache => cache
  | s :: ss, cache => runBatch hashF parseTT ss (parsePyC hashF parseTT s cache).2

/-! ## Sample data (used to instantiate theorems with hypotheses) -/

/-- A parse tree shaped like the grammar's tree for `"Tucumán 1300"`. -/
def sampleSimpleTree : PTree :=
  .node "simple"
    [.node "street_with_num"
      [.node "street_part" [.node "street" [.leaf "WORD"]],
       .node "door_number" [.node "door_number_value" [.leaf "NUM"]]]]

/-- A parse tree with root `intersection` and no street subtrees. -/
def sampleIsctTree : PTree := .node "intersection" [.leaf "WORD"]

/-! # Theorems -/

/-! ## Rank order basics -/

theorem rankLe_total (a b : Nat × Nat × Nat) : rankLe a b ∨ rankLe b a := by
  unfold rankLe; omega

theorem rankLe_trans {a b c : Nat × Nat × Nat} (h1 : rankLe a b) (h2 : rankLe b c) :
    rankLe a c := by
  unfold rankLe at *; omega

theorem rankLe_antisymm {a b : Nat × Nat × Nat} (h1 : rankLe a b) (h2 : rankLe b a) :
    a = b := by
  obtain ⟨a1, a2, a3⟩ := a
  obtain ⟨b1, b2, b3⟩ := b
  unfold rankLe at h1 h2
  dsimp only at h1 h2
  simp only [Prod.mk.injEq]
  omega

theorem rankLe_refl (a : Nat × Nat × Nat) : rankLe a a := by unfold rankLe; omega

theorem maxFold_init_le (ts : List PTree) (init : Nat × Nat × Nat) :
    rankLe init (maxFold ts init) := by
  induction ts generalizing init with
  | nil => exact rankLe_refl init
  | cons u us ih =>
    simp only [maxFold, List.foldl_cons]
    by_cases h : rankLe init (get_rank u)
    · simp only [if_pos h]
      exact rankLe_trans h (ih (get_rank u))
    · simp only [if_neg h]
      exact ih init

theorem maxFold_mem_le (ts : List PTree) (init : Nat × Nat × Nat) :
    ∀ t ∈ ts, rankLe (get_rank t) (maxFold ts init) := by
  induction ts generalizing init with
  | nil => intro t ht; cases ht
  | cons u us ih =>
    intro t ht
    simp only [maxFold, List.foldl_cons]
    rcases List.mem_cons.mp ht with rfl | hmem
    · by_cases h : rankLe init (get_rank t)
      · simp only [if_pos h]
        exact maxFold_init_le us (get_rank t)
      · simp only [if_neg h]
        rcases rankLe_total init (get_rank t) with h' | h'
        · exact absurd h' h
        · exact rankLe_trans h' (maxFold_init_le us init)
    · by_cases h : rankLe init (get_rank u)
      · simp only [if_pos h]; exact ih (get_rank u) t hmem
      · simp only [if_neg h]; exact ih init t hmem

theorem maxFold_cases (ts : List PTree) (init : Nat × Nat × Nat) :
    maxFold ts init = init ∨ ∃ t ∈ ts, maxFold ts init = get_rank t := by
  induction ts generalizing init with
  | nil => exact Or.inl rfl
  | cons u us ih =>
    simp only [maxFold, List.foldl_cons]
    by_cases h : rankLe init (get_rank u)
    · simp only [if_pos h]
      rcases ih (get_rank u) with h' | ⟨t, ht, h'⟩
      · exact Or.inr ⟨u, List.mem_cons_self u us, h'⟩
      · exact Or.inr ⟨t, List.mem_cons_of_mem u ht, h'⟩
    · simp only [if_neg h]
      rcases ih init with h' | ⟨t, ht, h'⟩
      · exact Or.inl h'
      · exact Or.inr ⟨t, List.mem_cons_of_mem u ht, h'⟩

theorem maxRank_is_ub (l : List PTree) : ∀ t ∈ l, rankLe (get_rank t) (maxRank l) := by
  intro t ht
  match l with
  | [] => cases ht
  | u :: us =>
    rcases List.mem_cons.mp ht with rfl | hmem
    · exact maxFold_init_le us (get_rank t)
    · exact maxFold_mem_le us (get_rank u) t hmem

theorem maxRank_mem (l : List PTree) (h : l ≠ []) : ∃ t ∈ l, get_rank t = maxRank l := by
  match l with
  | [] => exact absurd rfl h
  | u :: us =>
    rcases maxFold_cases us (get_rank u) with h' | ⟨t, ht, h'⟩
    · exact ⟨u, List.mem_cons_self u us, h'.symm⟩
    · exact ⟨t, List.mem_cons_of_mem u ht, h'.symm⟩

theorem maxRank_perm {l l' : List PTree} (hp : l.Perm l') (hne : l ≠ []) :
    maxRank l = maxRank l' := by
  have hne' : l' ≠ [] := by
    intro h; rw [h] at hp; exact hne hp.eq_nil
  obtain ⟨t, ht, hrt⟩ := maxRank_mem l hne
  obtain ⟨t', ht', hrt'⟩ := maxRank_mem l' hne'
  apply rankLe_antisymm
  · rw [← hrt]; exact maxRank_is_ub l' t (hp.mem_iff.mp ht)
  · rw [← hrt']; exact maxRank_is_ub l t' (hp.mem_iff.mpr ht')

/-- If `p` holds for at most one position, any two members satisfying `p`
are equal. -/
theorem countP_le_one_unique {p : PTree → Bool} {l : List PTree}
    (h : l.countP p ≤ 1) : ∀ x ∈ l, p x → ∀ y ∈ l, p y → x = y := by
  induction l with
  | nil => intro x hx; cases hx
  | cons c t ih =>
    intro x hx hpx y hy hpy
    rw [List.countP_cons] at h
    by_cases hpc : p c
    · simp only [hpc, if_pos] at h
      have ht0 : t.countP p = 0 := by omega
      have hnone : ∀ a ∈ t, ¬ p a := by
        intro a ha hpa
        have := List.countP_pos.mpr ⟨a, ha, hpa⟩
        omega
      rcases List.mem_cons.mp hx with rfl | hx'
      · rcases List.mem_cons.mp hy with rfl | hy'
        · rfl
        · exact absurd hpy (hnone y hy')
      · exact absurd hpx (hnone x hx')
    · have hpc' : ¬ (p c = true) := hpc
      rcases List.mem_cons.mp hx with rfl | hx'
      · exact absurd hpx hpc'
      · rcases List.mem_cons.mp hy with rfl | hy'
        · exact absurd hpy hpc'
        · exact ih (by omega) x hx' hpx y hy' hpy

theorem find?_eq_of_unique {p : PTree → Bool} {l : List PTree} {x : PTree}
    (hx : x ∈ l) (hpx : p x) (huniq : ∀ y ∈ l, p y → y = x) :
    l.find? p = some x := by
  induction l with
  | nil => cases hx
  | cons c t ih =>
    by_cases hpc : p c
    · have hcx : c = x := huniq c (List.mem_cons_self c t) hpc
      subst hcx
      simp [List.find?, hpc]
    · simp only [List.find?]
      rw [Bool.eq_false_iff.mpr hpc]
      rcases List.mem_cons.mp hx with rfl | hx'
      · exact absurd hpx hpc
      · exact ih hx' (fun y hy hpy => huniq y (List.mem_cons_of_mem c hy) hpy)
/-! ## Claim C2: the rank triple -/

theorem rankFold_spec (ss : List PTree) (hd : Bool) (un : Nat) :
    rankFold ss (hd, un) =
      (hd || ss.any (fun s => decide (labelOf s = "street_with_num")),
       un + ss.countP (fun s => decide (firstGrandchildLabel s = some "unnamed_street"))) := by
  induction ss generalizing hd un with
  | nil => simp [rankFold]
  | cons s ss ih =>
    simp only [rankFold, ih, List.any_cons, List.countP_cons, Bool.or_assoc]
    refine congrArg (fun x => (_, x)) ?_
    by_cases h : firstGrandchildLabel s = some "unnamed_street"
    · simp [h]; omega
    · simp [h]

theorem countP_filter_street (t : PTree) :
    ((subtreesOf t).filter
        (fun s => labelOf s = "street_no_num" || labelOf s = "street_with_num")).countP
      (fun s => decide (firstGrandchildLabel s = some "unnamed_street")) =
    (subtreesOf t).countP
      (fun s => (decide (labelOf s = "street_no_num") ||
                 decide (labelOf s = "street_with_num")) &&
                decide (firstGrandchildLabel s = some "unnamed_street")) := by
  induction subtreesOf t with
  | nil => rfl
  | cons c l ih =>
    by_cases h : labelOf c = "street_no_num"
    · by_cases h3 : firstGrandchildLabel c = some "unnamed_street" <;>
        simp [List.filter_cons, List.countP_cons, h, h3, ih]
    · by_cases h2 : labelOf c = "street_with_num"
      · by_cases h3 : firstGrandchildLabel c = some "unnamed_street" <;>
          simp [List.filter_cons, List.countP_cons, h, h2, h3, ih]
      · simp [List.filter_cons, List.countP_cons, h, h2, ih]

theorem any_filter_street (t : PTree) :
    ((subtreesOf t).filter
        (fun s => labelOf s = "street_no_num" || labelOf s = "street_with_num")).any
      (fun s => decide (labelOf s = "street_with_num")) =
    (subtreesOf t).any (fun s => decide (labelOf s = "street_with_num")) := by
  induction subtreesOf t with
  | nil => rfl
  | cons c l ih =>
    by_cases h : labelOf c = "street_with_num"
    · simp [List.filter_cons, List.any_cons, h, ih]
    · by_cases h2 : labelOf c = "street_no_num"
      · simp [List.filter_cons, List.any_cons, h, h2, ih]
      · simp [List.filter_cons, List.any_cons, h, h2, ih]

/-- **C2.** For every parse tree (whose root label is one of the three
address types, so that Python's `list.index` succeeds), the computed rank
equals the triple `(unnamed_streets, int(has_door_number), type_rank)`:
`has_door_number` is true iff the tree contains a subtree labelled
`street_with_num`; `unnamed_streets` counts the `street_no_num` and
`street_with_num` subtrees whose first grandchild is labelled
`unnamed_street`; and `type_rank` is the index of the root label in
`[intersection, simple, between]` when `has_door_number` holds and in
`[simple, intersection, between]` otherwise. -/
theorem get_rank_is_claimed_triple (t : PTree) (h : labelOf t ∈ ADDRESS_TYPES) :
    get_rank t =
      ((subtreesOf t).countP
          (fun s => (decide (labelOf s = "street_no_num") ||
                     decide (labelOf s = "street_with_num")) &&
                    decide (firstGrandchildLabel s = some "unnamed_street")),
       if (subtreesOf t).any (fun s => decide (labelOf s = "street_with_num")) then 1 else 0,
       (if (subtreesOf t).any (fun s => decide (labelOf s = "street_with_num")) then
          ["intersection", "simple", "between"]
        else ["simple", "intersection", "between"]).indexOf (labelOf t)) := by
  simp only [get_rank]
  rw [rankFold_spec]
  simp only [Bool.false_or, Nat.zero_add]
  rw [countP_filter_street, any_filter_street]
/-! ## Claim C1: the disambiguator -/

theorem disambiguate_eq (l : List PTree) (hne : l ≠ []) :
    disambiguate_trees l =
      if l.length = 1 then l.head?
      else if 2 ≤ l.countP (fun t => decide (get_rank t = maxRank l)) then none
      else l.find? (fun t => decide (get_rank t = maxRank l)) := by
  by_cases h1 : l.length = 1
  · simp [disambiguate_trees, h1]
  · have h2 : 2 ≤ l.length := by
      cases l with
      | nil => exact absurd rfl hne
      | cons a t =>
        cases t with
        | nil => simp at h1
        | cons b u => simp only [List.length_cons]; omega
    have hperm : (l.insertionSort rankGE).Perm l := List.perm_insertionSort rankGE l
    have hsort : List.Sorted rankGE (l.insertionSort rankGE) :=
      List.sorted_insertionSort rankGE l
    have hslen : 2 ≤ (l.insertionSort rankGE).length := by
      rw [hperm.length_eq]; exact h2
    obtain ⟨v0, v1, rest, hs⟩ : ∃ v0 v1 rest, l.insertionSort rankGE = v0 :: v1 :: rest := by
      match hm : l.insertionSort rankGE, hslen with
      | v0 :: v1 :: rest, _ => exact ⟨v0, v1, rest, rfl⟩
    have hd : disambiguate_trees l = if get_rank v0 = get_rank v1 then none else some v0 := by
      unfold disambiguate_trees
      rw [if_neg h1, hs]
    rw [hs] at hperm hsort
    have hv0l : v0 ∈ l := hperm.subset (List.mem_cons_self _ _)
    have hv1l : v1 ∈ l := hperm.subset (List.mem_cons_of_mem _ (List.mem_cons_self _ _))
    have hhead : ∀ b ∈ v1 :: rest, rankGE v0 b := List.rel_of_sorted_cons hsort
    have hv0M : get_rank v0 = maxRank l := by
      apply rankLe_antisymm (maxRank_is_ub l v0 hv0l)
      obtain ⟨tm, htm, hrtm⟩ := maxRank_mem l hne
      have htms : tm ∈ v0 :: v1 :: rest := hperm.mem_iff.mpr htm
      rcases List.mem_cons.mp htms with rfl | htms'
      · rw [hrtm]
        exact rankLe_refl _
      · rw [← hrtm]
        exact hhead tm htms'
    rw [hd, if_neg h1]
    by_cases heq : get_rank v0 = get_rank v1
    · rw [if_pos heq]
      have hcount : 2 ≤ l.countP (fun t => decide (get_rank t = maxRank l)) := by
        rw [← hperm.countP_eq]
        simp only [List.countP_cons, decide_eq_true_eq]
        rw [if_pos hv0M, if_pos (heq ▸ hv0M)]
        omega
      rw [if_pos hcount]
    · rw [if_neg heq]
      have htail : ∀ y ∈ v1 :: rest, ¬ (get_rank y = maxRank l) := by
        intro y hy hEq
        rcases List.mem_cons.mp hy with rfl | hy'
        · exact heq (hv0M.trans hEq.symm)
        · have hy1 : rankGE v1 y := List.rel_of_sorted_cons hsort.of_cons y hy'
          have h01 : rankGE v0 v1 := hhead v1 (List.mem_cons_self _ _)
          have : get_rank v1 = get_rank v0 := by
            apply rankLe_antisymm h01
            rw [hv0M, ← hEq]
            exact hy1
          exact heq this.symm
      have hcount1 : l.countP (fun t => decide (get_rank t = maxRank l)) = 1 := by
        rw [← hperm.countP_eq]
        simp only [List.countP_cons, decide_eq_true_eq]
        rw [if_pos hv0M]
        have hz : (v1 :: rest).countP (fun t => decide (get_rank t = maxRank l)) = 0 := by
          rw [List.countP_eq_zero]
          intro a ha
          simp only [decide_eq_true_eq]
          exact htail a ha
        simp only [List.countP_cons, decide_eq_true_eq] at hz
        omega
      have hnc : ¬ 2 ≤ l.countP (fun t => decide (get_rank t = maxRank l)) := by
        rw [hcount1]; omega
      rw [if_neg hnc]
      symm
      apply find?_eq_of_unique hv0l (decide_eq_true hv0M)
      intro y hy hpy
      exact countP_le_one_unique (by rw [hcount1]) y hy hpy v0 hv0l (decide_eq_true hv0M)

/-- **C1.** For every non-empty list of parse trees given to the
disambiguator: a singleton list returns its tree; otherwise the trees are
sorted by rank descending and, when the two highest ranks coincide, the
ambiguity signal `none` is returned, else the unique maximal-rank tree.
The characterization is expressed order-independently (count of trees of
maximal rank), and the second conjunct states explicitly that the
selection is invariant under permutation of the input list. -/
theorem disambiguate_trees_spec (l : List PTree) (hne : l ≠ []) :
    (disambiguate_trees l =
      if l.length = 1 then l.head?
      else if 2 ≤ l.countP (fun t => decide (get_rank t = maxRank l)) then none
      else l.find? (fun t => decide (get_rank t = maxRank l)))
    ∧ ∀ l', l.Perm l' → disambiguate_trees l = disambiguate_trees l' := by
  refine ⟨disambiguate_eq l hne, ?_⟩
  intro l' hp
  have hne' : l' ≠ [] := by
    intro h
    apply hne
    have := hp.length_eq
    rw [h] at this
    exact List.length_eq_zero.mp this
  rw [disambiguate_eq l hne, disambiguate_eq l' hne']
  have hlen : l.length = l'.length := hp.length_eq
  by_cases h1 : l.length = 1
  · rw [if_pos h1, if_pos (hlen ▸ h1)]
    obtain ⟨a, ha⟩ := List.length_eq_one.mp h1
    have ha' : l' = [a] := by
      rw [ha] at hp
      exact List.perm_singleton.mp hp.symm
    rw [ha, ha']
  · have h1' : ¬ l'.length = 1 := by rw [← hlen]; exact h1
    rw [if_neg h1, if_neg h1']
    have hM : maxRank l = maxRank l' := maxRank_perm hp hne
    have hcount : l.countP (fun t => decide (get_rank t = maxRank l)) =
        l'.countP (fun t => decide (get_rank t = maxRank l')) := by
      rw [← hM, hp.countP_eq]
    by_cases hc : 2 ≤ l.countP (fun t => decide (get_rank t = maxRank l))
    · rw [if_pos hc, if_pos (hcount ▸ hc)]
    · rw [if_neg hc, if_neg (by rw [← hcount]; exact hc)]
      obtain ⟨tm, htm, hrtm⟩ := maxRank_mem l hne
      have hple : l.countP (fun t => decide (get_rank t = maxRank l)) ≤ 1 := by omega
      have hple' : l'.countP (fun t => decide (get_rank t = maxRank l')) ≤ 1 := by
        rw [← hcount]; exact hple
      rw [find?_eq_of_unique htm (decide_eq_true hrtm)
            (fun y hy hpy => countP_le_one_unique hple y hy hpy tm htm (decide_eq_true hrtm)),
          find?_eq_of_unique (hp.mem_iff.mp htm) (decide_eq_true (hrtm.trans hM))
            (fun y hy hpy => countP_le_one_unique hple' y hy hpy tm (hp.mem_iff.mp htm)
              (decide_eq_true (hrtm.trans hM)))]
/-- Witness for C1: the theorem applied to a concrete two-tree list. -/
theorem disambiguate_trees_spec_witness :
    (disambiguate_trees [sampleSimpleTree, sampleIsctTree] =
      if ([sampleSimpleTree, sampleIsctTree] : List PTree).length = 1 then
        ([sampleSimpleTree, sampleIsctTree] : List PTree).head?
      else if 2 ≤ ([sampleSimpleTree, sampleIsctTree] : List PTree).countP
          (fun t => decide (get_rank t = maxRank [sampleSimpleTree, sampleIsctTree])) then
        none
      else ([sampleSimpleTree, sampleIsctTree] : List PTree).find?
          (fun t => decide (get_rank t = maxRank [sampleSimpleTree, sampleIsctTree])))
    ∧ disambiguate_trees [sampleSimpleTree, sampleIsctTree] = some sampleSimpleTree := by
  refine ⟨(disambiguate_trees_spec [sampleSimpleTree, sampleIsctTree] (by simp)).1, ?_⟩
  rw [(disambiguate_trees_spec [sampleSimpleTree, sampleIsctTree] (by simp)).1]
  rfl

/-- Witness for C2: the theorem applied to a concrete tree. -/
theorem get_rank_is_claimed_triple_witness :
    labelOf sampleSimpleTree ∈ ADDRESS_TYPES ∧
    get_rank sampleSimpleTree =
      ((subtreesOf sampleSimpleTree).countP
          (fun s => (decide (labelOf s = "street_no_num") ||
                     decide (labelOf s = "street_with_num")) &&
                    decide (firstGrandchildLabel s = some "unnamed_street")),
       if (subtreesOf sampleSimpleTree).any
            (fun s => decide (labelOf s = "street_with_num")) then 1 else 0,
       (if (subtreesOf sampleSimpleTree).any
            (fun s => decide (labelOf s = "street_with_num")) then
          ["intersection", "simple", "between"]
        else ["simple", "intersection", "between"]).indexOf (labelOf sampleSimpleTree)) :=
  ⟨by simp [sampleSimpleTree, labelOf, ADDRESS_TYPES],
   get_rank_is_claimed_triple sampleSimpleTree
     (by simp [sampleSimpleTree, labelOf, ADDRESS_TYPES])⟩
/-! ## Claim C8: door-number unit normalization -/

theorem litAt_isSome_iff (pat : List Char) (cs : List Char) :
    (litAt pat cs).isSome = true ↔
      ∃ mid post, cs = mid ++ post ∧ mid.map lowerCh = pat := by
  induction pat generalizing cs with
  | nil =>
    simp only [litAt, Option.isSome_some, true_iff]
    exact ⟨[], cs, rfl, rfl⟩
  | cons p ps ih =>
    cases cs with
    | nil =>
      simp only [litAt, Option.isSome_none, Bool.false_eq_true, false_iff]
      rintro ⟨mid, post, h1, h2⟩
      cases mid with
      | nil => simp at h2
      | cons m ms => simp at h1
    | cons c rest =>
      simp only [litAt]
      by_cases hc : lowerCh c = p
      · rw [if_pos hc]
        have hsm : (Option.map (· + 1) (litAt ps rest)).isSome = (litAt ps rest).isSome := by
          cases litAt ps rest <;> rfl
        rw [hsm, ih rest]
        constructor
        · rintro ⟨mid, post, h1, h2⟩
          exact ⟨c :: mid, post, by simp [h1], by simp [h2, hc]⟩
        · rintro ⟨mid, post, h1, h2⟩
          cases mid with
          | nil => simp at h2
          | cons m ms =>
            simp only [List.cons_append, List.cons.injEq] at h1
            simp only [List.map_cons, List.cons.injEq] at h2
            exact ⟨ms, post, h1.2, h2.2⟩
      · rw [if_neg hc]
        simp only [Option.isSome_none, Bool.false_eq_true, false_iff]
        rintro ⟨mid, post, h1, h2⟩
        cases mid with
        | nil => simp at h2
        | cons m ms =>
          simp only [List.cons_append, List.cons.injEq] at h1
          simp only [List.map_cons, List.cons.injEq] at h2
          exact hc (h1.1 ▸ h2.1)

theorem kmAt_iff (cs : List Char) :
    kmAt cs = true ↔ ∃ mid post, cs = mid ++ post ∧ KmFragment mid := by
  unfold kmAt KmFragment
  simp only [Bool.or_eq_true_iff, litAt_isSome_iff]
  constructor
  · rintro ((⟨mid, post, h1, h2⟩ | ⟨mid, post, h1, h2⟩) | ⟨mid, post, h1, h2⟩)
    · exact ⟨mid, post, h1, Or.inl h2⟩
    · exact ⟨mid, post, h1, Or.inr (Or.inl h2)⟩
    · exact ⟨mid, post, h1, Or.inr (Or.inr h2)⟩
  · rintro ⟨mid, post, h1, h2 | h2 | h2⟩
    · exact Or.inl (Or.inl ⟨mid, post, h1, h2⟩)
    · exact Or.inl (Or.inr ⟨mid, post, h1, h2⟩)
    · exact Or.inr ⟨mid, post, h1, h2⟩

theorem containsKm_iff (cs : List Char) :
    containsKm cs = true ↔
      ∃ pre mid post, cs = pre ++ mid ++ post ∧ KmFragment mid := by
  induction cs with
  | nil =>
    simp only [containsKm, Bool.false_eq_true, false_iff]
    rintro ⟨pre, mid, post, h1, h2⟩
    have hmid : mid ≠ [] := by
      rintro rfl
      rcases h2 with h2 | h2 | h2 <;> simp [KmFragment] at h2
    have h3 : pre ++ (mid ++ post) = [] := by
      rw [← List.append_assoc]
      exact h1.symm
    rcases List.append_eq_nil.mp h3 with ⟨_, h4⟩
    exact hmid (List.append_eq_nil.mp h4).1
  | cons c rest ih =>
    simp only [containsKm, Bool.or_eq_true_iff]
    constructor
    · rintro (h | h)
      · obtain ⟨mid, post, h1, h2⟩ := (kmAt_iff _).mp h
        exact ⟨[], mid, post, by simpa using h1, h2⟩
      · obtain ⟨pre, mid, post, h1, h2⟩ := ih.mp h
        exact ⟨c :: pre, mid, post, by simp [h1], h2⟩
    · rintro ⟨pre, mid, post, h1, h2⟩
      cases pre with
      | nil =>
        refine Or.inl ((kmAt_iff _).mpr ⟨mid, post, ?_, h2⟩)
        simpa using h1
      | cons p ps =>
        simp only [List.cons_append, List.cons.injEq] at h1
        exact Or.inr (ih.mpr ⟨ps, mid, post, h1.2, h2⟩)

/-- **C8.** `normalized_door_number_unit()` returns `"km"` exactly when the
stored unit is a non-empty string containing a fragment matching
`km|kilometro|kilómetro` case-insensitively, and `none` otherwise —
including when the unit is absent or empty (the result is always `"km"`
or `none`). -/
theorem normalized_door_number_unit_spec :
    normalized_door_number_unit none = none ∧
    normalized_door_number_unit (some "") = none ∧
    ∀ s : String,
      (normalized_door_number_unit (some s) = some "km" ↔
        (s ≠ "" ∧ ∃ pre mid post, s.toList = pre ++ mid ++ post ∧ KmFragment mid)) ∧
      (normalized_door_number_unit (some s) = some "km" ∨
       normalized_door_number_unit (some s) = none) := by
  refine ⟨rfl, rfl, fun s => ⟨?_, ?_⟩⟩
  · simp only [normalized_door_number_unit]
    by_cases hs : s = ""
    · simp [hs]
    · rw [if_neg hs]
      by_cases hk : containsKm s.toList
      · simp only [if_pos hk, true_iff]
        exact ⟨hs, (containsKm_iff _).mp hk⟩
      · simp only [if_neg hk]
        constructor
        · intro h; cases h
        · rintro ⟨_, hdec⟩
          exact absurd ((containsKm_iff _).mpr hdec) hk
  · simp only [normalized_door_number_unit]
    by_cases hs : s = ""
    · simp [hs]
    · rw [if_neg hs]
      by_cases hk : containsKm s.toList
      · simp [hk]
      · simp [hk]

/-- Witness for C8: concrete evaluations through the theorem. -/
theorem normalized_door_number_unit_spec_witness :
    normalized_door_number_unit (some "KM.") = some "km" ∧
    normalized_door_number_unit none = none :=
  ⟨(normalized_door_number_unit_spec.2.2 "KM.").1.mpr
      ⟨by decide, [], ['K', 'M'], ['.'], by decide, Or.inl (by decide)⟩,
   normalized_door_number_unit_spec.1⟩
/-! ## Claim C7: door-number value normalization -/

theorem takeWhile_append_all {p : Char → Bool} {l1 : List Char} (l2 : List Char)
    (h : ∀ a ∈ l1, p a) : (l1 ++ l2).takeWhile p = l1 ++ l2.takeWhile p := by
  induction l1 with
  | nil => simp
  | cons c cs ih =>
    have hc : p c := h c (List.mem_cons_self c cs)
    simp only [List.cons_append, List.takeWhile_cons, hc, if_pos]
    rw [ih (fun a ha => h a (List.mem_cons_of_mem c ha))]

theorem takeWhile_all_eq_self {p : Char → Bool} {l : List Char}
    (h : ∀ a ∈ l, p a) : l.takeWhile p = l := by
  have := @takeWhile_append_all p l [] h
  simpa using this

theorem takeWhile_nil_of_head {p : Char → Bool} {c : Char} {l : List Char}
    (h : ¬ p c) : (c :: l).takeWhile p = [] := by
  simp [List.takeWhile_cons, h]

theorem searchFloat_of_no_digit {cs : List Char} (h : ∀ c ∈ cs, ¬ isDigitCh c) :
    searchFloat cs = none := by
  induction cs with
  | nil => rfl
  | cons c rest ih =>
    have hc : ¬ isDigitCh c := h c (List.mem_cons_self c rest)
    simp only [searchFloat]
    rw [takeWhile_nil_of_head hc]
    simp only [List.isEmpty_nil, if_pos]
    exact ih (fun a ha => h a (List.mem_cons_of_mem c ha))

theorem searchFloat_of_all_digits {cs : List Char} (h : ∀ c ∈ cs, isDigitCh c) :
    searchFloat cs = none := by
  induction cs with
  | nil => rfl
  | cons c rest ih =>
    simp only [searchFloat]
    have htw : (c :: rest).takeWhile isDigitCh = c :: rest :=
      takeWhile_all_eq_self h
    rw [htw]
    have hdrop : (c :: rest).drop (c :: rest).length = [] := by
      simp
    rw [hdrop]
    have hne : ((c :: rest).isEmpty) = false := by simp
    simp only [hne, Bool.false_eq_true, if_neg]
    exact ih (fun a ha => h a (List.mem_cons_of_mem c ha))

theorem searchInt_of_no_digit {cs : List Char} (h : ∀ c ∈ cs, ¬ isDigitCh c) :
    searchInt cs = none := by
  induction cs with
  | nil => rfl
  | cons c rest ih =>
    have hc : ¬ isDigitCh c := h c (List.mem_cons_self c rest)
    simp only [searchInt, hc, Bool.false_eq_true, if_neg]
    exact ih (fun a ha => h a (List.mem_cons_of_mem c ha))

theorem searchInt_isSome_of_digit {cs : List Char} (h : ∃ c ∈ cs, isDigitCh c) :
    (searchInt cs).isSome = true := by
  induction cs with
  | nil => obtain ⟨c, hc, _⟩ := h; cases hc
  | cons c rest ih =>
    by_cases hc : isDigitCh c
    · simp [searchInt, hc]
    · simp only [searchInt, hc, Bool.false_eq_true, if_neg]
      obtain ⟨a, ha, hda⟩ := h
      rcases List.mem_cons.mp ha with rfl | ha'
      · exact absurd hda hc
      · exact ih ⟨a, ha', hda⟩

theorem searchFloat_clean (d1 d2 : List Char) (sep : Char)
    (h1 : d1 ≠ []) (h2 : d2 ≠ []) (hd1 : ∀ c ∈ d1, isDigitCh c)
    (hd2 : ∀ c ∈ d2, isDigitCh c) (hsep : sep = '.' ∨ sep = ',') :
    searchFloat (d1 ++ sep :: d2) = some (d1, d2) := by
  have hsepd : ¬ isDigitCh sep := by
    rcases hsep with rfl | rfl <;> decide
  cases d1 with
  | nil => exact absurd rfl h1
  | cons c d1' =>
    simp only [List.cons_append, searchFloat, List.append_eq]
    have htw : ((c :: d1') ++ sep :: d2).takeWhile isDigitCh = c :: d1' := by
      rw [takeWhile_append_all _ hd1, takeWhile_nil_of_head hsepd]
      simp
    simp only [List.cons_append] at htw
    rw [htw]
    have hne : (c :: d1').isEmpty = false := by simp
    simp only [hne, Bool.false_eq_true, if_neg]
    have hdrop : (c :: (d1' ++ sep :: d2)).drop (c :: d1').length = sep :: d2 := by
      have := List.drop_left (c :: d1') (sep :: d2)
      simpa using this
    rw [hdrop]
    have hif : (sep = '.' || sep = ',') = true := by
      rcases hsep with rfl | rfl <;> simp
    simp only [hif, if_pos]
    rw [takeWhile_all_eq_self hd2]
    have hne2 : d2.isEmpty = false := by
      cases d2 with
      | nil => exact absurd rfl h2
      | cons a as => simp
    simp [hne2]

theorem searchFloat_cons_isSome (c : Char) (rest : List Char)
    (h : (searchFloat rest).isSome = true) :
    (searchFloat (c :: rest)).isSome = true := by
  simp only [searchFloat]
  split
  · rfl
  · exact h

theorem searchFloat_isSome_prefix (d1 : List Char) (sep : Char) (d2 post : List Char)
    (h1 : d1 ≠ []) (h2 : d2 ≠ []) (hd1 : ∀ c ∈ d1, isDigitCh c)
    (hd2 : ∀ c ∈ d2, isDigitCh c) (hsep : sep = '.' ∨ sep = ',') :
    (searchFloat (d1 ++ (sep :: (d2 ++ post)))).isSome = true := by
  have hsepd : ¬ isDigitCh sep := by
    rcases hsep with rfl | rfl <;> decide
  cases d1 with
  | nil => exact absurd rfl h1
  | cons c d1' =>
    rw [List.cons_append]
    simp only [searchFloat]
    have htw : List.takeWhile isDigitCh (c :: (d1' ++ (sep :: (d2 ++ post)))) = c :: d1' := by
      have := @takeWhile_append_all isDigitCh (c :: d1')
        (sep :: (d2 ++ post)) hd1
      rw [List.cons_append] at this
      rw [this, takeWhile_nil_of_head hsepd]
      simp
    rw [htw]
    have hne : (c :: d1').isEmpty = false := by simp
    simp only [hne, Bool.false_eq_true, if_neg]
    have hdrop : (c :: (d1' ++ (sep :: (d2 ++ post)))).drop (c :: d1').length =
        sep :: (d2 ++ post) := by
      have := List.drop_left (c :: d1') (sep :: (d2 ++ post))
      rw [List.cons_append] at this
      exact this
    rw [hdrop]
    have hif : (sep = '.' || sep = ',') = true := by
      rcases hsep with rfl | rfl <;> simp
    simp only [hif, if_pos]
    have htw2 : ((d2 ++ post).takeWhile isDigitCh).isEmpty = false := by
      cases d2 with
      | nil => exact absurd rfl h2
      | cons a as =>
        have ha : isDigitCh a = true := hd2 a (List.mem_cons_self a as)
        simp [List.takeWhile_cons, ha]
    simp only [htw2, Bool.false_eq_true, if_neg]
    simp

theorem searchFloat_isSome_of_shape {cs : List Char} (h : FloatShape cs) :
    (searchFloat cs).isSome = true := by
  obtain ⟨pre, d1, sep, d2, post, hcs, h1, h2, hd1, hd2, hsep⟩ := h
  subst hcs
  induction pre with
  | nil =>
    rw [List.nil_append]
    exact searchFloat_isSome_prefix d1 sep d2 post h1 h2 hd1 hd2 hsep
  | cons p ps ih =>
    rw [List.cons_append]
    exact searchFloat_cons_isSome p _ ih

theorem prefix_decomp {pfx l : List Char} (h : pfx <+: l) :
    l = pfx ++ l.drop pfx.length := by
  obtain ⟨t, ht⟩ := h
  subst ht
  rw [List.drop_left]

theorem floatShape_of_searchFloat_some :
    ∀ {cs : List Char} {r : List Char × List Char},
      searchFloat cs = some r → FloatShape cs := by
  intro cs
  induction cs with
  | nil => intro r h; cases h
  | cons c rest ih =>
    intro r h
    rw [searchFloat] at h
    split at h
    · -- the match at this position succeeded
      rename_i heq
      dsimp only at heq
      split at heq
      · cases heq
      · rename_i hne1
        split at heq
        · rename_i sep' rest' hdrop
          split at heq
          · rename_i hsep'
            split at heq
            · cases heq
            · rename_i hne2
              cases heq
              -- assemble the decomposition
              refine ⟨[], (c :: rest).takeWhile isDigitCh, sep',
                rest'.takeWhile isDigitCh,
                rest'.drop (rest'.takeWhile isDigitCh).length, ?_, ?_, ?_, ?_, ?_, ?_⟩
              · rw [List.nil_append]
                have hp1 : (c :: rest) =
                    (c :: rest).takeWhile isDigitCh ++
                      (c :: rest).drop ((c :: rest).takeWhile isDigitCh).length :=
                  prefix_decomp (List.takeWhile_prefix _)
                have hp2 : rest' =
                    rest'.takeWhile isDigitCh ++
                      rest'.drop (rest'.takeWhile isDigitCh).length :=
                  prefix_decomp (List.takeWhile_prefix _)
                conv_lhs => rw [hp1]
                rw [hdrop, ← hp2]
              · intro hemp
                rw [hemp] at hne1
                simp at hne1
              · intro hemp
                rw [hemp] at hne2
                simp at hne2
              · intro a ha
                exact List.mem_takeWhile_imp ha
              · intro a ha
                exact List.mem_takeWhile_imp ha
              · rcases Bool.or_eq_true_iff.mp hsep' with h' | h'
                · exact Or.inl (by simpa using h')
                · exact Or.inr (by simpa using h')
          · cases heq
        · cases heq
    · -- no match here: the match came from the tail
      obtain ⟨pre, d1, sep, d2, post, hcs, h1, h2, hd1, hd2, hsep⟩ := ih h
      exact ⟨c :: pre, d1, sep, d2, post, by rw [hcs, List.cons_append], h1, h2,
        hd1, hd2, hsep⟩

theorem string_mk_ne_empty {l : List Char} (h : l ≠ []) : (⟨l⟩ : String) ≠ "" := by
  intro he
  apply h
  have : (⟨l⟩ : String).data = ("" : String).data := by rw [he]
  simpa using this

/-- **C7.** `normalized_door_number_value()`: a value of the exact shape
`digits [,.] digits` yields the float (comma and dot both read as the
decimal point, modelled as an exact rational); a pure digit string yields
the integer; any value containing a `digits[,.]digits` fragment yields a
float and any other value containing a digit yields an integer; a value
with no digits — such as the missing-number sentinel `"S/N"` — and an
absent value yield `none`. -/
theorem normalized_door_number_value_spec :
    (∀ d1 d2 : List Char, ∀ sep : Char, d1 ≠ [] → d2 ≠ [] →
      (∀ c ∈ d1, isDigitCh c) → (∀ c ∈ d2, isDigitCh c) → (sep = '.' ∨ sep = ',') →
      normalized_door_number_value (some ⟨d1 ++ sep :: d2⟩) =
        some (.pfloat (floatVal d1 d2)))
    ∧ (∀ ds : List Char, ds ≠ [] → (∀ c ∈ ds, isDigitCh c) →
      normalized_door_number_value (some ⟨ds⟩) = some (.pint (digitsVal ds)))
    ∧ (∀ s : String, FloatShape s.toList →
      ∃ q, normalized_door_number_value (some s) = some (.pfloat q))
    ∧ (∀ s : String, ¬ FloatShape s.toList → (∃ c ∈ s.toList, isDigitCh c) →
      ∃ n, normalized_door_number_value (some s) = some (.pint n))
    ∧ (∀ s : String, (∀ c ∈ s.toList, ¬ isDigitCh c) →
      normalized_door_number_value (some s) = none)
    ∧ normalized_door_number_value (some "S/N") = none
    ∧ normalized_door_number_value none = none := by
  refine ⟨?_, ?_, ?_, ?_, ?_, by decide, rfl⟩
  · intro d1 d2 sep h1 h2 hd1 hd2 hsep
    simp only [normalized_door_number_value]
    rw [if_neg (string_mk_ne_empty (by cases d1 <;> simp_all))]
    have htl : (⟨d1 ++ sep :: d2⟩ : String).toList = d1 ++ sep :: d2 := rfl
    rw [htl, searchFloat_clean d1 d2 sep h1 h2 hd1 hd2 hsep]
  · intro ds hne hds
    simp only [normalized_door_number_value]
    rw [if_neg (string_mk_ne_empty hne)]
    have htl : (⟨ds⟩ : String).toList = ds := rfl
    rw [htl, searchFloat_of_all_digits hds]
    cases ds with
    | nil => exact absurd rfl hne
    | cons c rest =>
      have hc : isDigitCh c = true := hds c (List.mem_cons_self c rest)
      simp only [searchInt, hc, if_pos]
      rw [takeWhile_all_eq_self hds]
  · intro s hshape
    have hne : s ≠ "" := by
      intro he
      subst he
      obtain ⟨pre, d1, sep, d2, post, hcs, h1, _⟩ := hshape
      rcases List.append_eq_nil.mp hcs.symm with ⟨_, h4⟩
      exact h1 (List.append_eq_nil.mp h4).1
    simp only [normalized_door_number_value]
    rw [if_neg hne]
    have := searchFloat_isSome_of_shape hshape
    rcases hf : searchFloat s.toList with _ | ⟨da, db⟩
    · rw [hf] at this; simp at this
    · exact ⟨floatVal da db, rfl⟩
  · intro s hnshape hdig
    have hne : s ≠ "" := by
      intro he
      subst he
      obtain ⟨c, hc, _⟩ := hdig
      cases hc
    simp only [normalized_door_number_value]
    rw [if_neg hne]
    rcases hf : searchFloat s.toList with _ | ⟨da, db⟩
    · have := searchInt_isSome_of_digit hdig
      rcases hi : searchInt s.toList with _ | d
      · rw [hi] at this; simp at this
      · exact ⟨digitsVal d, rfl⟩
    · -- a successful float search gives a FloatShape decomposition,
      -- contradicting `hnshape`
      exact absurd (floatShape_of_searchFloat_some hf) hnshape
  · intro s hnone
    simp only [normalized_door_number_value]
    by_cases hs : s = ""
    · simp [hs]
    · rw [if_neg hs]
      rw [searchFloat_of_no_digit hnone, searchInt_of_no_digit hnone]
/-- Witness for C7: the theorem applied to the concrete values `"32,5"`
and `"1300"`. -/
theorem normalized_door_number_value_spec_witness :
    normalized_door_number_value (some ⟨['3', '2'] ++ ',' :: ['5']⟩) =
      some (.pfloat (floatVal ['3', '2'] ['5'])) ∧
    normalized_door_number_value (some ⟨['1', '3', '0', '0']⟩) =
      some (.pint (digitsVal ['1', '3', '0', '0'])) :=
  ⟨normalized_door_number_value_spec.1 ['3', '2'] ['5'] ','
      (by decide) (by decide) (by decide) (by decide) (Or.inr rfl),
   normalized_door_number_value_spec.2.1 ['1', '3', '0', '0']
      (by decide) (by decide)⟩
/-! ## Claims C5 and C10: the tokenizer -/

theorem dropWhile_idem {p : Char → Bool} (l : List Char) :
    (l.dropWhile p).dropWhile p = l.dropWhile p := by
  induction l with
  | nil => rfl
  | cons c t ih =>
    by_cases hc : p c
    · simp [List.dropWhile_cons, hc, ih]
    · simp [List.dropWhile_cons, hc]

theorem head?_dropWhile {p : Char → Bool} {l : List Char} {c : Char}
    (h : (l.dropWhile p).head? = some c) : ¬ p c := by
  induction l with
  | nil => cases h
  | cons a t ih =>
    by_cases ha : p a
    · rw [List.dropWhile_cons, if_pos ha] at h
      exact ih h
    · rw [List.dropWhile_cons, if_neg ha] at h
      cases h
      exact ha

theorem dropWhile_eq_self_of_head {p : Char → Bool} {l : List Char}
    (h : ∀ c, l.head? = some c → ¬ p c) : l.dropWhile p = l := by
  cases l with
  | nil => rfl
  | cons a t =>
    rw [List.dropWhile_cons, if_neg (h a rfl)]

theorem dropWhile_suffix {p : Char → Bool} (l : List Char) :
    ∃ t, l = t ++ l.dropWhile p := by
  induction l with
  | nil => exact ⟨[], rfl⟩
  | cons a tl ih =>
    by_cases ha : p a
    · obtain ⟨t, ht⟩ := ih
      refine ⟨a :: t, ?_⟩
      rw [List.dropWhile_cons, if_pos ha, List.cons_append, ← ht]
    · exact ⟨[], by rw [List.dropWhile_cons, if_neg ha, List.nil_append]⟩

/-- Stripping from the right yields a prefix, so a non-empty result keeps
the original head. -/
theorem head?_dropTrailing {p : Char → Bool} {l : List Char} {c : Char}
    (h : ((l.reverse.dropWhile p).reverse).head? = some c) : l.head? = some c := by
  obtain ⟨t, ht⟩ := @dropWhile_suffix p l.reverse
  have hl : l = (l.reverse.dropWhile p).reverse ++ t.reverse := by
    have := congrArg List.reverse ht
    simpa using this
  rw [hl]
  cases hrev : (l.reverse.dropWhile p).reverse with
  | nil => rw [hrev] at h; cases h
  | cons x xs =>
    rw [hrev] at h
    cases h
    rfl

theorem stripChars_idem (l : List Char) : stripChars (stripChars l) = stripChars l := by
  have hfront : (stripChars l).dropWhile isSpaceCh = stripChars l := by
    apply dropWhile_eq_self_of_head
    intro c hc
    exact head?_dropWhile (head?_dropTrailing (by simpa [stripChars] using hc))
  show (((stripChars l).dropWhile isSpaceCh).reverse.dropWhile isSpaceCh).reverse =
    stripChars l
  rw [hfront]
  conv_lhs => rw [show stripChars l =
    ((l.dropWhile isSpaceCh).reverse.dropWhile isSpaceCh).reverse from rfl]
  rw [List.reverse_reverse, dropWhile_idem]
  rfl

theorem tokenizeFuel_props (fuel : Nat) (cs : List Char) :
    ∀ p ∈ tokenizeFuel fuel cs, p.2 ≠ "WS" ∧ stripChars p.1.toList = p.1.toList := by
  induction fuel generalizing cs with
  | zero => intro p hp; cases hp
  | succ n ih =>
    intro p hp
    cases cs with
    | nil => cases hp
    | cons c rest =>
      rw [tokenizeFuel] at hp
      rcases hmf : matchFirst (c :: rest) with _ | ⟨kind, k⟩
      · rw [hmf] at hp
        exact ih rest p hp
      · rw [hmf] at hp
        dsimp only at hp
        by_cases hws : kind = "WS"
        · rw [if_pos hws] at hp
          exact ih _ p hp
        · rw [if_neg hws] at hp
          rcases List.mem_cons.mp hp with rfl | hp'
          · refine ⟨hws, ?_⟩
            show stripChars (String.mk (stripChars _)).toList = _
            have : (String.mk (stripChars ((c :: rest).take (max k 1)))).toList =
                stripChars ((c :: rest).take (max k 1)) := rfl
            rw [this, stripChars_idem]
          · exact ih _ p hp'

/-- **C5 counterexample.** On the input `"1ro."` the tokenizer produces
the single token `("1ro.", ORDINAL)`: the lexeme ends with the
punctuation character `'.'`, so lexemes do *not* have trailing
punctuation stripped (Python `str.strip()` strips whitespace only). -/
theorem tokenize_trailing_punct_counterexample :
    tokenize_address "1ro." = [("1ro.", "ORDINAL")] ∧
    "1ro.".toList.getLast? = some '.' := by
  constructor
  · decide
  · decide

/-- **C5 (amended).** For every input string, tokenization is a total
function (the `WORD` alternative absorbs any non-whitespace material not
otherwise classified) yielding a finite ordered sequence of
(lexeme, kind) pairs in which no kind is `WS` and every lexeme has
leading and trailing *whitespace* stripped; trailing punctuation is kept
(see the counterexample). -/
theorem tokenize_address_props (s : String) :
    ∀ p ∈ tokenize_address s, p.2 ≠ "WS" ∧ stripChars p.1.toList = p.1.toList :=
  tokenizeFuel_props s.toList.length s.toList

/-- Witness for C5: the amended theorem applied to the concrete input
`"a 1"` and its first token. -/
theorem tokenize_address_props_witness :
    ("a", "LETTER") ∈ tokenize_address "a 1" ∧
    ("a", "LETTER").2 ≠ "WS" ∧
    stripChars ("a", "LETTER").1.toList = ("a", "LETTER").1.toList :=
  ⟨by decide, tokenize_address_props "a 1" ("a", "LETTER") (by decide)⟩
theorem matchGo_append (L1 L2 : List (String × (List Char → Option Nat)))
    (cs : List Char) :
    matchGo (L1 ++ L2) cs =
      match matchGo L1 cs with
      | some r => some r
      | none => matchGo L2 cs := by
  induction L1 with
  | nil => rfl
  | cons e l ih =>
    obtain ⟨name, m⟩ := e
    simp only [List.cons_append, matchGo]
    cases m cs <;> simp [ih]

theorem matchGo_names {L : List (String × (List Char → Option Nat))}
    {cs : List Char} {k : String} {n : Nat}
    (h : matchGo L cs = some (k, n)) : k ∈ L.map Prod.fst := by
  induction L with
  | nil => cases h
  | cons e l ih =>
    obtain ⟨name, m⟩ := e
    rw [matchGo] at h
    rcases hm : m cs with _ | v
    · rw [hm] at h
      exact List.mem_cons_of_mem _ (ih h)
    · rw [hm] at h
      cases h
      exact List.mem_cons_self _ _

/-- At a non-whitespace character the combined token expression always
matches, with an alternative other than `WS` (at worst the `WORD`
catch-all). -/
theorem matchFirst_nonspace {c : Char} (rest : List Char)
    (hc : isSpaceCh c = false) :
    ∃ k n, matchFirst (c :: rest) = some (k, n) ∧ k ≠ "WS" := by
  unfold matchFirst tokenTypes
  rw [matchGo_append]
  rcases hpre : matchGo preTokenTypes (c :: rest) with _ | ⟨k, n⟩
  · have hW : mWORD (c :: rest) =
        some (((c :: rest).takeWhile (fun x => !isSpaceCh x)).length) := by
      unfold mWORD
      have hemp : ((c :: rest).takeWhile (fun x => !isSpaceCh x)).isEmpty = false := by
        rw [List.takeWhile_cons]
        simp [hc]
      simp [hemp]
    refine ⟨"WORD", ((c :: rest).takeWhile (fun x => !isSpaceCh x)).length, ?_, by decide⟩
    simp only [matchGo, hW]
  · refine ⟨k, n, rfl, ?_⟩
    intro hk
    have hmem := matchGo_names hpre
    rw [hk] at hmem
    revert hmem
    decide

theorem splitFuel_words (fuel : Nat) (cs : List Char) :
    ∀ w ∈ splitFuel fuel cs, ∃ c w', w = c :: w' ∧ isSpaceCh c = false := by
  induction fuel generalizing cs with
  | zero => intro w hw; cases hw
  | succ n ih =>
    intro w hw
    cases cs with
    | nil => cases hw
    | cons c rest =>
      rw [splitFuel] at hw
      by_cases hc : isSpaceCh c
      · rw [if_pos hc] at hw
        exact ih rest w hw
      · rw [if_neg hc] at hw
        rcases List.mem_cons.mp hw with rfl | hw'
        · exact ⟨c, _, rfl, by simpa using hc⟩
        · exact ih _ w hw'

theorem joinSp_head (w : List Char) (ws : List (List Char)) (c : Char)
    (w' : List Char) (hw : w = c :: w') : ∃ t, joinSp (w :: ws) = c :: t := by
  cases ws with
  | nil => exact ⟨w', by simp [joinSp, hw]⟩
  | cons v vs => exact ⟨w' ++ ' ' :: joinSp (v :: vs), by simp [joinSp, hw]⟩

/-- A non-empty normalized string starts with a non-whitespace character
(the final stage of the normalizer joins the split words with single
spaces). -/
theorem normalize_address_head (s : String) (h : normalize_address s ≠ "") :
    ∃ c t, (normalize_address s).toList = c :: t ∧ isSpaceCh c = false := by
  unfold normalize_address at *
  cases hsp : splitWs (sepScan (noiseScan (stripChars s.toList))) with
  | nil =>
    exfalso
    apply h
    show (⟨joinSp (splitWs (sepScan (noiseScan (stripChars s.toList))))⟩ : String) = ""
    rw [hsp]
    rfl
  | cons w ws =>
    have hwmem : w ∈ splitWs (sepScan (noiseScan (stripChars s.toList))) := by
      rw [hsp]
      exact List.mem_cons_self _ _
    obtain ⟨c, w', hw, hc⟩ := splitFuel_words _ _ w hwmem
    obtain ⟨t, ht⟩ := joinSp_head w ws c w' hw
    refine ⟨c, t, ?_, hc⟩
    show joinSp (w :: ws) = c :: t
    exact ht

/-- **C10.** For every input string whose normalization is non-empty, the
tokenizer produces at least one token (every non-whitespace character is
matched by some non-`WS` alternative, `WORD` acting as catch-all), so the
facade never reaches the chart-parsing stage with an empty token-kind
sequence. -/
theorem parse_token_sequence_nonempty (s : String) (h : normalize_address s ≠ "") :
    tokenize_address (normalize_address s) ≠ [] ∧ typesOf s ≠ [] := by
  obtain ⟨c, t, htl, hc⟩ := normalize_address_head s h
  have htok : tokenize_address (normalize_address s) ≠ [] := by
    unfold tokenize_address tokenizeList
    rw [htl, List.length_cons]
    obtain ⟨k, n, hmf, hk⟩ := matchFirst_nonspace t hc
    rw [tokenizeFuel, hmf]
    dsimp only
    rw [if_neg hk]
    exact List.cons_ne_nil _ _
  refine ⟨htok, ?_⟩
  unfold typesOf
  intro hmap
  exact htok (List.map_eq_nil.mp hmap)

/-- Witness for C10: the theorem applied to the input `"a"`. -/
theorem parse_token_sequence_nonempty_witness :
    normalize_address "a" ≠ "" ∧ typesOf "a" ≠ [] :=
  ⟨by decide, (parse_token_sequence_nonempty "a" (by decide)).2⟩
/-! ## Claim C6: the letter–digit separation stage -/

theorem isWordNonDigit_of_digit {c : Char} (hc : isDigitCh c) :
    isWordNonDigit c = false := by
  unfold isWordNonDigit
  rw [hc]
  simp

theorem sepMatchAt_cons_digit {c : Char} (ds : List Char) (hc : isDigitCh c) :
    sepMatchAt (c :: ds) = none := by
  simp only [sepMatchAt]
  rw [takeWhile_nil_of_head (by rw [isWordNonDigit_of_digit hc]; simp)]
  simp

theorem sepFuel_digits (fuel : Nat) (ds : List Char)
    (h : ∀ c ∈ ds, isDigitCh c) : sepFuel fuel ds = ds := by
  induction fuel generalizing ds with
  | zero => rfl
  | succ n ih =>
    cases ds with
    | nil => rfl
    | cons c rest =>
      rw [sepFuel, sepMatchAt_cons_digit rest (h c (List.mem_cons_self c rest))]
      rw [ih rest (fun a ha => h a (List.mem_cons_of_mem c ha))]

theorem sepMatchAt_run (w : List Char) (d : Char) (ds : List Char)
    (hw : ∀ c ∈ w, isWordNonDigit c) (h2 : 2 ≤ w.length) (hd : isDigitCh d) :
    sepMatchAt (w ++ d :: ds) = some (w, d) := by
  simp only [sepMatchAt]
  have hrun : (w ++ d :: ds).takeWhile isWordNonDigit = w := by
    rw [takeWhile_append_all _ hw,
        takeWhile_nil_of_head (by rw [isWordNonDigit_of_digit hd]; simp)]
    simp
  rw [hrun, List.drop_left]
  have hdot : d ≠ '.' := by
    intro h
    rw [h] at hd
    exact absurd hd (by decide)
  rw [if_pos (by omega)]
  split
  · rename_i heq
    rw [List.cons.injEq] at heq
    exact absurd heq.1 hdot
  · rename_i heq
    rw [List.cons.injEq] at heq
    rw [← heq.1, if_pos hd]
  · rename_i heq
    cases heq

theorem sepMatchAt_run_dot (w : List Char) (d : Char) (ds : List Char)
    (hw : ∀ c ∈ w, isWordNonDigit c) (h2 : 2 ≤ w.length) (hd : isDigitCh d) :
    sepMatchAt (w ++ '.' :: d :: ds) = some (w ++ ['.'], d) := by
  simp only [sepMatchAt]
  have hrun : (w ++ '.' :: d :: ds).takeWhile isWordNonDigit = w := by
    rw [takeWhile_append_all _ hw, takeWhile_nil_of_head (by decide)]
    simp
  rw [hrun, List.drop_left]
  rw [if_pos (by omega)]
  split
  · rename_i heq
    rw [List.cons.injEq] at heq
    obtain ⟨-, heq2⟩ := heq
    rw [List.cons.injEq] at heq2
    rw [← heq2.1, if_pos hd]
  · rename_i hne heq
    rw [List.cons.injEq] at heq
    exact (hne d ds heq.1.symm heq.2.symm).elim
  · rename_i heq
    cases heq

theorem sepMatchAt_single (c : Char) (ds : List Char) (hc : isWordNonDigit c)
    (hds : ∀ x ∈ ds, isDigitCh x) : sepMatchAt (c :: ds) = none := by
  simp only [sepMatchAt]
  have hrun : (c :: ds).takeWhile isWordNonDigit = [c] := by
    rw [List.takeWhile_cons, if_pos hc]
    cases ds with
    | nil => rfl
    | cons d rest =>
      rw [takeWhile_nil_of_head
        (by rw [isWordNonDigit_of_digit (hds d (List.mem_cons_self d rest))]; simp)]
  rw [hrun]
  simp

/-- **C6.** The normalizer's separation stage inserts a single space
between a run of two or more non-digit word characters (optionally ending
with `'.'`) and an immediately following digit, while a single letter
glued to digits is left unchanged; concretely, `"hola123"` normalizes to
`"hola 123"` and `"1ro"` stays `"1ro"`. -/
theorem separation_stage_spec :
    (∀ w : List Char, ∀ d : Char, ∀ ds : List Char,
      (∀ c ∈ w, isWordNonDigit c) → 2 ≤ w.length → isDigitCh d →
      (∀ c ∈ ds, isDigitCh c) →
      sepScan (w ++ d :: ds) = w ++ ' ' :: d :: ds)
    ∧ (∀ w : List Char, ∀ d : Char, ∀ ds : List Char,
      (∀ c ∈ w, isWordNonDigit c) → 2 ≤ w.length → isDigitCh d →
      (∀ c ∈ ds, isDigitCh c) →
      sepScan (w ++ '.' :: d :: ds) = w ++ '.' :: ' ' :: d :: ds)
    ∧ (∀ c : Char, ∀ ds : List Char, isWordNonDigit c → (∀ x ∈ ds, isDigitCh x) →
      sepScan (c :: ds) = c :: ds)
    ∧ normalize_address "hola123" = "hola 123"
    ∧ normalize_address "1ro" = "1ro" := by
  refine ⟨?_, ?_, ?_, by decide, by decide⟩
  · intro w d ds hw h2 hd hds
    cases w with
    | nil => simp at h2
    | cons c w' =>
      unfold sepScan
      rw [List.cons_append, List.length_cons, sepFuel, ← List.cons_append,
          sepMatchAt_run (c :: w') d ds hw h2 hd]
      dsimp only
      have hdrop : ((c :: w') ++ d :: ds).drop ((c :: w').length + 1) = ds := by
        have h1 : (c :: w') ++ d :: ds = ((c :: w') ++ [d]) ++ ds := by simp
        have h2 : ((c :: w') ++ [d]).length = (c :: w').length + 1 := by simp
        rw [h1, ← h2, List.drop_left]
      rw [hdrop, sepFuel_digits _ ds hds, List.cons_append]
  · intro w d ds hw h2 hd hds
    cases w with
    | nil => simp at h2
    | cons c w' =>
      unfold sepScan
      rw [List.cons_append, List.length_cons, sepFuel, ← List.cons_append,
          sepMatchAt_run_dot (c :: w') d ds hw h2 hd]
      dsimp only
      have hdrop : ((c :: w') ++ '.' :: d :: ds).drop ((c :: w' ++ ['.']).length + 1) = ds := by
        have h1 : (c :: w') ++ '.' :: d :: ds = (((c :: w') ++ ['.']) ++ [d]) ++ ds := by
          simp
        have h2 : ((((c :: w') ++ ['.'])) ++ [d]).length = (c :: w' ++ ['.']).length + 1 := by
          simp
        rw [h1, ← h2, List.drop_left]
      rw [hdrop, sepFuel_digits _ ds hds]
      simp
  · intro c ds hc hds
    unfold sepScan
    rw [List.length_cons, sepFuel, sepMatchAt_single c ds hc hds]
    rw [sepFuel_digits _ ds hds]

/-- Witness for C6: the theorem applied to concrete runs. -/
theorem separation_stage_spec_witness :
    sepScan (['a', 'b'] ++ '1' :: ['2']) = ['a', 'b'] ++ ' ' :: '1' :: ['2'] ∧
    sepScan ('a' :: ['1']) = 'a' :: ['1'] :=
  ⟨separation_stage_spec.1 ['a', 'b'] '1' ['2']
      (by decide) (by decide) (by decide) (by decide),
   separation_stage_spec.2.2.1 'a' ['1'] (by decide) (by decide)⟩
/-! ## Claim C9: the facade never raises and fails exactly as specified -/

mutual

theorem indexT_count : ∀ (t : PTree) (n : Nat), (indexT t n).2 = n + leafCount t
  | .leaf _, n => by simp [indexT, leafCount]
  | .node l cs, n => by
    simp only [indexT, leafCount]
    exact indexTList_count cs n

theorem indexTList_count : ∀ (l : List PTree) (n : Nat),
    (indexTList l n).2 = n + leafCountList l
  | [], n => by simp [indexTList, leafCountList]
  | c :: cs, n => by
    simp only [indexTList, leafCountList]
    rw [indexTList_count cs (indexT c n).2, indexT_count c n]
    omega

end

mutual

theorem leavesI_indexT_bound : ∀ (t : PTree) (n : Nat) (i : Nat),
    i ∈ leavesI (indexT t n).1 → n ≤ i ∧ i < n + leafCount t
  | .leaf _, n, i => by
    intro hi
    simp only [indexT, leavesI, List.mem_singleton] at hi
    subst hi
    simp [leafCount]
  | .node l cs, n, i => by
    intro hi
    simp only [indexT, leavesI] at hi
    simpa [leafCount] using leavesI_indexTList_bound cs n i hi

theorem leavesI_indexTList_bound : ∀ (l : List PTree) (n : Nat) (i : Nat),
    i ∈ leavesIList (indexTList l n).1 → n ≤ i ∧ i < n + leafCountList l
  | [], n, i => by
    intro hi
    simp [indexTList, leavesIList] at hi
  | c :: cs, n, i => by
    intro hi
    simp only [indexTList, leavesIList, List.mem_append] at hi
    rcases hi with hi | hi
    · have := leavesI_indexT_bound c n i hi
      simp only [leafCountList]
      omega
    · have := leavesI_indexTList_bound cs (indexT c n).2 i hi
      rw [indexT_count c n] at this
      simp only [leafCountList]
      omega

end

mutual

theorem subtreesI_leaves_subset : ∀ (it : ITree) (s : ITree), s ∈ subtreesI it →
    ∀ i ∈ leavesI s, i ∈ leavesI it
  | .leaf _, s => by
    intro hs
    simp [subtreesI] at hs
  | .node lb cs, s => by
    intro hs i hi
    simp only [subtreesI, List.mem_cons] at hs
    rcases hs with rfl | hs
    · exact hi
    · simp only [leavesI]
      exact subtreesIList_leaves_subset cs s hs i hi

theorem subtreesIList_leaves_subset : ∀ (l : List ITree) (s : ITree),
    s ∈ subtreesIList l → ∀ i ∈ leavesI s, i ∈ leavesIList l
  | [], s => by
    intro hs
    simp [subtreesIList] at hs
  | c :: cs, s => by
    intro hs i hi
    simp only [subtreesIList, List.mem_append] at hs
    simp only [leavesIList, List.mem_append]
    rcases hs with hs | hs
    · exact Or.inl (subtreesI_leaves_subset c s hs i hi)
    · exact Or.inr (subtreesIList_leaves_subset cs s hs i hi)

end

theorem cliFold_bound (P : Nat → Prop) (ss : List ITree) (acc : Components)
    (hss : ∀ s ∈ ss, ∀ i ∈ leavesI s, P i)
    (hstreet : ∀ li ∈ acc.street, ∀ i ∈ li, P i)
    (hdnv : ∀ li, acc.door_number_value = some li → ∀ i ∈ li, P i)
    (hdnu : ∀ li, acc.door_number_unit = some li → ∀ i ∈ li, P i)
    (hfl : ∀ li, acc.floor = some li → ∀ i ∈ li, P i) :
    (∀ li ∈ (cliFold ss acc).street, ∀ i ∈ li, P i) ∧
    (∀ li, (cliFold ss acc).door_number_value = some li → ∀ i ∈ li, P i) ∧
    (∀ li, (cliFold ss acc).door_number_unit = some li → ∀ i ∈ li, P i) ∧
    (∀ li, (cliFold ss acc).floor = some li → ∀ i ∈ li, P i) := by
  induction ss generalizing acc with
  | nil => exact ⟨hstreet, hdnv, hdnu, hfl⟩
  | cons s ss ih =>
    have hs : ∀ i ∈ leavesI s, P i := hss s (List.mem_cons_self s ss)
    have hss' : ∀ u ∈ ss, ∀ i ∈ leavesI u, P i :=
      fun u hu => hss u (List.mem_cons_of_mem s hu)
    rw [cliFold]
    by_cases h1 : labelI s = "street"
    · rw [if_pos h1]
      apply ih
      · exact hss'
      · intro li hli
        have h' : li ∈ acc.street ++ [leavesI s] := hli
        rcases List.mem_append.mp h' with h | h
        · exact hstreet li h
        · rw [List.mem_singleton] at h
          subst h
          exact hs
      · exact hdnv
      · exact hdnu
      · exact hfl
    · rw [if_neg h1]
      by_cases h2 : labelI s = "door_number_value"
      · rw [if_pos h2]
        apply ih
        · exact hss'
        · exact hstreet
        · intro li hli
          have h' : some (leavesI s) = some li := hli
          cases h'
          exact hs
        · exact hdnu
        · exact hfl
      · rw [if_neg h2]
        by_cases h3 : labelI s = "door_number_unit"
        · rw [if_pos h3]
          apply ih
          · exact hss'
          · exact hstreet
          · exact hdnv
          · intro li hli
            have h' : some (leavesI s) = some li := hli
            cases h'
            exact hs
          · exact hfl
        · rw [if_neg h3]
          by_cases h4 : labelI s = "floor"
          · rw [if_pos h4]
            apply ih
            · exact hss'
            · exact hstreet
            · exact hdnv
            · exact hdnu
            · intro li hli
              have h' : some (leavesI s) = some li := hli
              cases h'
              exact hs
          · rw [if_neg h4]
            exact ih _ hss' hstreet hdnv hdnu hfl

theorem components_bound (t : PTree) :
    (∀ li ∈ (components_leaves_indices t).street, ∀ i ∈ li, i < leafCount t) ∧
    (∀ li, (components_leaves_indices t).door_number_value = some li →
      ∀ i ∈ li, i < leafCount t) ∧
    (∀ li, (components_leaves_indices t).door_number_unit = some li →
      ∀ i ∈ li, i < leafCount t) ∧
    (∀ li, (components_leaves_indices t).floor = some li →
      ∀ i ∈ li, i < leafCount t) := by
  unfold components_leaves_indices
  apply cliFold_bound
  · intro s hs i hi
    have hsub : s ∈ subtreesI (indexT t 0).1 := (List.mem_filter.mp hs).1
    have hmem := subtreesI_leaves_subset (indexT t 0).1 s hsub i hi
    have := leavesI_indexT_bound t 0 i hmem
    omega
  · intro li hli
    cases hli
  · intro li h
    cases h
  · intro li h
    cases h
  · intro li h
    cases h

theorem select_ok {tokens : List (String × String)} {indices : List Nat}
    (h : ∀ i ∈ indices, i < tokens.length) :
    ∃ v, select_token_values tokens indices = .ok v := by
  unfold select_token_values
  rw [if_pos]
  · exact ⟨_, rfl⟩
  · rw [List.all_eq_true]
    intro i hi
    exact decide_eq_true (h i hi)

theorem selectAll_ok {tokens : List (String × String)} {iss : List (List Nat)}
    (h : ∀ li ∈ iss, ∀ i ∈ li, i < tokens.length) :
    ∃ vs, selectAll tokens iss = .ok vs := by
  induction iss with
  | nil => exact ⟨[], rfl⟩
  | cons is iss ih =>
    obtain ⟨v, hv⟩ := select_ok (h is (List.mem_cons_self is iss))
    obtain ⟨vs, hvs⟩ := ih (fun li hli => h li (List.mem_cons_of_mem is hli))
    refine ⟨v :: vs, ?_⟩
    rw [selectAll, hv, hvs]

theorem selectOpt_ok {tokens : List (String × String)} {oli : Option (List Nat)}
    (h : ∀ li, oli = some li → ∀ i ∈ li, i < tokens.length) :
    ∃ v, selectOpt tokens oli = .ok v := by
  match oli with
  | none => exact ⟨none, rfl⟩
  | some [] => exact ⟨none, rfl⟩
  | some (i :: is) =>
    obtain ⟨v, hv⟩ := select_ok (h (i :: is) rfl)
    refine ⟨some v, ?_⟩
    show (select_token_values tokens (i :: is)).map some = .ok (some v)
    rw [hv]
    rfl

theorem extract_data_ok (t : PTree) (tokens : List (String × String))
    (hleaf : leafCount t = tokens.length) :
    ∃ r, extract_data t tokens = .ok r := by
  obtain ⟨hstreet, hdnv, hdnu, hfl⟩ := components_bound t
  rw [hleaf] at hstreet hdnv hdnu hfl
  obtain ⟨vs, hvs⟩ := selectAll_ok hstreet
  obtain ⟨v1, hv1⟩ := selectOpt_ok hdnv
  obtain ⟨v2, hv2⟩ := selectOpt_ok hdnu
  obtain ⟨v3, hv3⟩ := selectOpt_ok hfl
  refine ⟨(vs, v1, v2, v3), ?_⟩
  unfold extract_data
  rw [hvs, hv1, hv2, hv3]

theorem assemble_ok (t : PTree) (tokens : List (String × String))
    (hlab : labelOf t ∈ ADDRESS_TYPES) (hleaf : leafCount t = tokens.length) :
    ∃ ad, assemble t tokens = .ok (some ad) := by
  obtain ⟨r, hr⟩ := extract_data_ok t tokens hleaf
  unfold assemble
  rw [hr]
  dsimp only
  unfold mkAddressData
  rw [if_pos hlab]
  exact ⟨_, rfl⟩

/-- **C9.** `parse` never raises an exception: for every input the result
is an `.ok` value (given the grammar contract on the chart-parsing stage),
and the result is the null outcome exactly when normalization reduced the
input to empty or the chart-parse/disambiguation stage produced no tree
(which covers empty tokenization, no parse trees, and ambiguity); in
particular `parse "" = none` and `parse "   " = none`. -/
theorem parse_failure_semantics (parseTT : List String → Option PTree)
    (hcc : ChartContract parseTT) :
    (∀ s, ∃ r, parsePy parseTT s = .ok r)
    ∧ (∀ s, parsePy parseTT s = .ok none ↔
        (normalize_address s = "" ∨ parseTT (typesOf s) = none))
    ∧ parsePy parseTT "" = .ok none
    ∧ parsePy parseTT "   " = .ok none := by
  have hmain : ∀ s, (∃ r, parsePy parseTT s = .ok r) ∧
      (parsePy parseTT s = .ok none ↔
        (normalize_address s = "" ∨ parseTT (typesOf s) = none)) := by
    intro s
    unfold parsePy
    by_cases hempty : normalize_address s = ""
    · rw [if_pos hempty]
      exact ⟨⟨none, rfl⟩, by simp [hempty]⟩
    · rw [if_neg hempty]
      dsimp only
      have htypes : typesOf s =
          (tokenize_address (normalize_address s)).map Prod.snd := rfl
      rcases hpt : parseTT ((tokenize_address (normalize_address s)).map Prod.snd)
        with _ | t
      · refine ⟨⟨none, rfl⟩, ?_⟩
        rw [htypes, hpt]
        simp
      · dsimp only
        obtain ⟨hlab, hleaf⟩ := hcc _ t hpt
        rw [List.length_map] at hleaf
        obtain ⟨ad, had⟩ := assemble_ok t (tokenize_address (normalize_address s))
          hlab hleaf
        rw [had]
        constructor
        · exact ⟨some ad, rfl⟩
        · constructor
          · intro h
            cases h
          · intro h
            rcases h with h | h
            · exact absurd h hempty
            · rw [htypes, hpt] at h
              cases h
  refine ⟨fun s => (hmain s).1, fun s => (hmain s).2, ?_, ?_⟩
  · have h := (hmain "").2
    rw [h]
    left
    decide
  · have h := (hmain "   ").2
    rw [h]
    left
    decide

/-- Witness for C9: the chart contract holds vacuously for the stage that
returns no tree, and the facade returns the null outcome on `""`. -/
theorem parse_failure_semantics_witness :
    parsePy (fun _ => none) "" = .ok none ∧
    parsePy (fun _ => none) "Tucumán 1300" = .ok none :=
  ⟨(parse_failure_semantics (fun _ => none) (fun _ t h => nomatch h)).2.2.1,
   ((parse_failure_semantics (fun _ => none) (fun _ t h => nomatch h)).2.1
      "Tucumán 1300").mpr (Or.inr rfl)⟩
/-! ## Claims C3 and C4: the structure cache -/

theorem lookupA_mem {K : Type} [DecidableEq K] {cache : List (K × Option PTree)}
    {k : K} {v : Option PTree} (h : lookupA cache k = some v) : (k, v) ∈ cache := by
  induction cache with
  | nil => cases h
  | cons kv rest ih =>
    obtain ⟨k', v'⟩ := kv
    rw [lookupA] at h
    by_cases hk : k' = k
    · rw [if_pos hk] at h
      cases h
      rw [hk]
      exact List.mem_cons_self _ _
    · rw [if_neg hk] at h
      exact List.mem_cons_of_mem _ (ih h)

theorem parse_token_types_c_fst {K : Type} [DecidableEq K]
    {hashF : List String → K} (hinj : Function.Injective hashF)
    {parseTT : List String → Option PTree} {cache : List (K × Option PTree)}
    (hgood : ∀ kv ∈ cache, ∃ tts, kv.1 = hashF tts ∧ kv.2 = parseTT tts)
    (tts : List String) :
    (parse_token_types_c hashF parseTT cache tts).1 = parseTT tts := by
  unfold parse_token_types_c
  dsimp only
  rcases hl : lookupA cache (hashF tts) with _ | v
  · rfl
  · obtain ⟨tts', h1, h2⟩ := hgood _ (lookupA_mem hl)
    dsimp only at h1 h2
    have htts : tts' = tts := hinj h1.symm
    show v = parseTT tts
    rw [h2, htts]

theorem parse_token_types_c_good {K : Type} [DecidableEq K]
    (hashF : List String → K) (parseTT : List String → Option PTree)
    (cache : List (K × Option PTree))
    (hgood : ∀ kv ∈ cache, ∃ tts, kv.1 = hashF tts ∧ kv.2 = parseTT tts)
    (tts : List String) :
    ∀ kv ∈ (parse_token_types_c hashF parseTT cache tts).2,
      ∃ tts', kv.1 = hashF tts' ∧ kv.2 = parseTT tts' := by
  unfold parse_token_types_c
  dsimp only
  rcases hl : lookupA cache (hashF tts) with _ | v
  · intro kv hkv
    rcases List.mem_cons.mp hkv with rfl | hkv'
    · exact ⟨tts, rfl, rfl⟩
    · exact hgood kv hkv'
  · exact hgood

theorem parsePyC_fst {K : Type} [DecidableEq K]
    {hashF : List String → K} (hinj : Function.Injective hashF)
    {parseTT : List String → Option PTree} {cache : List (K × Option PTree)}
    (hgood : ∀ kv ∈ cache, ∃ tts, kv.1 = hashF tts ∧ kv.2 = parseTT tts)
    (s : String) :
    (parsePyC hashF parseTT s cache).1 = parsePy parseTT s := by
  unfold parsePyC parsePy
  by_cases hempty : normalize_address s = ""
  · rw [if_pos hempty, if_pos hempty]
  · rw [if_neg hempty, if_neg hempty]
    dsimp only
    rw [show (parse_token_types_c hashF parseTT cache
        ((tokenize_address (normalize_address s)).map Prod.snd)).1 =
        parseTT ((tokenize_address (normalize_address s)).map Prod.snd) from
      parse_token_types_c_fst hinj hgood _]
    rcases parseTT ((tokenize_address (normalize_address s)).map Prod.snd) with _ | t
    · rfl
    · rfl

theorem parsePyC_good {K : Type} [DecidableEq K]
    (hashF : List String → K) (parseTT : List String → Option PTree)
    (cache : List (K × Option PTree))
    (hgood : ∀ kv ∈ cache, ∃ tts, kv.1 = hashF tts ∧ kv.2 = parseTT tts)
    (s : String) :
    ∀ kv ∈ (parsePyC hashF parseTT s cache).2,
      ∃ tts', kv.1 = hashF tts' ∧ kv.2 = parseTT tts' := by
  unfold parsePyC
  by_cases hempty : normalize_address s = ""
  · rw [if_pos hempty]
    exact hgood
  · rw [if_neg hempty]
    dsimp only
    have hg := parse_token_types_c_good hashF parseTT cache hgood
      ((tokenize_address (normalize_address s)).map Prod.snd)
    rcases (parse_token_types_c hashF parseTT cache
        ((tokenize_address (normalize_address s)).map Prod.snd)).1 with _ | t
    · exact hg
    · exact hg

theorem runBatch_good {K : Type} [DecidableEq K]
    (hashF : List String → K) (parseTT : List String → Option PTree)
    (batch : List String) (cache : List (K × Option PTree))
    (hgood : ∀ kv ∈ cache, ∃ tts, kv.1 = hashF tts ∧ kv.2 = parseTT tts) :
    ∀ kv ∈ runBatch hashF parseTT batch cache,
      ∃ tts', kv.1 = hashF tts' ∧ kv.2 = parseTT tts' := by
  induction batch generalizing cache with
  | nil => exact hgood
  | cons s ss ih =>
    rw [runBatch]
    exact ih _ (parsePyC_good hashF parseTT cache hgood s)

/-- **C3.** Parsing with an externally supplied cache that started empty
(and has been filled by any prior batch of parses) returns the same
result as parsing without a cache — including for inputs whose token-kind
sequence was already seen with different lexemes, and for cached negative
(ambiguous/no-tree) outcomes.  Python's `hash(tuple(...))` on the
token-kind sequence is modelled as an arbitrary injective key function. -/
theorem cache_transparency {K : Type} [DecidableEq K] (hashF : List String → K)
    (hinj : Function.Injective hashF) (parseTT : List String → Option PTree)
    (prior : List String) (s : String) :
    (parsePyC hashF parseTT s (runBatch hashF parseTT prior [])).1 =
      parsePy parseTT s :=
  parsePyC_fst hinj
    (runBatch_good hashF parseTT prior [] (fun kv hkv => absurd hkv (by simp))) s

/-- Witness for C3: `"b 2"` parsed after `"a 1"` (same token-kind
sequence, different lexemes, cached negative outcome) agrees with the
uncached parse. -/
theorem cache_transparency_witness :
    (parsePyC (fun l => l) (fun _ => none) "b 2"
      (runBatch (fun l => l) (fun _ => none) ["a 1"] [])).1 =
    parsePy (fun _ => none) "b 2" :=
  cache_transparency (fun l => l) (fun _ _ h => h) (fun _ => none) ["a 1"] "b 2"

theorem parsePyC_state {K : Type} [DecidableEq K]
    (hashF : List String → K) (parseTT : List String → Option PTree)
    (cache : List (K × Option PTree)) (s : String) :
    (parsePyC hashF parseTT s cache).2 =
      if normalize_address s = "" then cache
      else
        match lookupA cache (hashF (typesOf s)) with
        | some _ => cache
        | none => (hashF (typesOf s), parseTT (typesOf s)) :: cache := by
  unfold parsePyC
  by_cases hempty : normalize_address s = ""
  · rw [if_pos hempty, if_pos hempty]
  · rw [if_neg hempty, if_neg hempty]
    dsimp only
    have htypes : typesOf s = (tokenize_address (normalize_address s)).map Prod.snd := rfl
    rw [← htypes]
    unfold parse_token_types_c
    dsimp only
    rcases hl : lookupA cache (hashF (typesOf s)) with _ | v
    · dsimp only
      rcases parseTT (typesOf s) with _ | t <;> rfl
    · dsimp only
      rcases v with _ | t <;> rfl

theorem runBatch_all_hit {K : Type} [DecidableEq K]
    (hashF : List String → K) (parseTT : List String → Option PTree)
    (batch : List String) (cache : List (K × Option PTree))
    (h : ∀ u ∈ batch, normalize_address u = "" ∨
      (lookupA cache (hashF (typesOf u))).isSome = true) :
    runBatch hashF parseTT batch cache = cache := by
  induction batch with
  | nil => rfl
  | cons s ss ih =>
    rw [runBatch]
    have hst : (parsePyC hashF parseTT s cache).2 = cache := by
      rw [parsePyC_state]
      rcases h s (List.mem_cons_self s ss) with hu | hu
      · rw [if_pos hu]
      · by_cases hempty : normalize_address s = ""
        · rw [if_pos hempty]
        · rw [if_neg hempty]
          rcases hl : lookupA cache (hashF (typesOf s)) with _ | v
          · rw [hl] at hu
            cases hu
          · rfl
    rw [hst]
    exact ih (fun u hu => h u (List.mem_cons_of_mem s hu))

theorem runBatch_length_new {K : Type} [DecidableEq K]
    (hashF : List String → K) (parseTT : List String → Option PTree)
    (batch : List String) (cache : List (K × Option PTree))
    (hnn : ∀ s ∈ batch, normalize_address s ≠ "")
    (hnew : ∀ s ∈ batch, lookupA cache (hashF (typesOf s)) = none)
    (hnd : (batch.map (fun s => hashF (typesOf s))).Nodup) :
    (runBatch hashF parseTT batch cache).length = cache.length + batch.length := by
  induction batch generalizing cache with
  | nil => rfl
  | cons s ss ih =>
    rw [runBatch]
    have hst : (parsePyC hashF parseTT s cache).2 =
        (hashF (typesOf s), parseTT (typesOf s)) :: cache := by
      rw [parsePyC_state, if_neg (hnn s (List.mem_cons_self s ss)),
          hnew s (List.mem_cons_self s ss)]
    rw [hst]
    rw [List.map_cons, List.nodup_cons] at hnd
    have hlen := ih ((hashF (typesOf s), parseTT (typesOf s)) :: cache)
      (fun u hu => hnn u (List.mem_cons_of_mem s hu))
      (fun u hu => by
        rw [lookupA]
        have hne : hashF (typesOf s) ≠ hashF (typesOf u) := by
          intro he
          apply hnd.1
          rw [List.mem_map]
          exact ⟨u, hu, he.symm⟩
        rw [if_neg hne]
        exact hnew u (List.mem_cons_of_mem s hu))
      hnd.2
    rw [hlen]
    simp only [List.length_cons]
    omega

/-- **C4.** After parsing a batch with a shared cache started empty:
inputs that all yield one and the same token-kind sequence leave exactly
one cache entry, and `n` inputs with pairwise-distinct token-kind
sequences leave exactly `n` entries — the cache is keyed by the ordered
token-kind sequence (via the injective hash of that sequence), not by
lexemes. -/
theorem cache_key_discipline {K : Type} [DecidableEq K] (hashF : List String → K)
    (hinj : Function.Injective hashF) (parseTT : List String → Option PTree)
    (batch : List String) (hnn : ∀ s ∈ batch, normalize_address s ≠ "") :
    (∀ tts, batch ≠ [] → (∀ s ∈ batch, typesOf s = tts) →
      (runBatch hashF parseTT batch []).length = 1)
    ∧ ((batch.map typesOf).Nodup →
      (runBatch hashF parseTT batch []).length = batch.length) := by
  constructor
  · intro tts hne hsame
    cases batch with
    | nil => exact absurd rfl hne
    | cons s ss =>
      rw [runBatch]
      have hst : (parsePyC hashF parseTT s []).2 =
          [(hashF (typesOf s), parseTT (typesOf s))] := by
        rw [parsePyC_state, if_neg (hnn s (List.mem_cons_self s ss))]
        rfl
      rw [hst]
      rw [runBatch_all_hit hashF parseTT ss _ (fun u hu => by
        right
        rw [lookupA]
        have : typesOf u = typesOf s := by
          rw [hsame u (List.mem_cons_of_mem s hu), hsame s (List.mem_cons_self s ss)]
        rw [this, if_pos rfl]
        rfl)]
      rfl
  · intro hnd
    have hnd' : (batch.map (fun s => hashF (typesOf s))).Nodup := by
      have := @List.Nodup.map _ _ _ hashF (fun a b hab => hinj hab) hnd
      rw [List.map_map] at this
      exact this
    have hrb := runBatch_length_new hashF parseTT batch [] hnn
      (fun s _ => rfl) hnd'
    rw [hrb]
    simp

/-- Witness for C4: two lexeme-distinct inputs with the same token-kind
sequence leave one entry; two inputs with distinct sequences leave two. -/
theorem cache_key_discipline_witness :
    (runBatch (fun l => l) (fun _ => none) ["a 1", "b 2"] []).length = 1 ∧
    (runBatch (fun l => l) (fun _ => none) ["a 1", "hola x"] []).length = 2 :=
  ⟨(cache_key_discipline (fun l => l) (fun _ _ h => h) (fun _ => none)
      ["a 1", "b 2"] (by decide)).1 ["LETTER", "NUM"] (by simp) (by decide),
   (cache_key_discipline (fun l => l) (fun _ _ h => h) (fun _ => none)
      ["a 1", "hola x"] (by decide)).2 (by decide)⟩

end Georef
